import Mathlib

/-!
Verification development for the HLASM flow-resolution engine
(`hlasm_parser.pipeline.light_parser.LightParser`) and the instruction
tokenizer (`hlasm_parser.parser.instruction_parser.InstructionParser`).

The Python source is shallowly embedded: every definition below mirrors one
function (or one module-level regular expression) of the source.  Regular
expressions are embedded through a small backtracking-matcher combinator
layer whose alternative order reproduces the leftmost-greedy semantics of
Python's `re` module for the patterns that occur in the source.
-/

set_option maxRecDepth 40000

namespace HP

/-- The single-quote character, written via its code point. -/
def sq : Char := Char.ofNat 39

/-- Helper for writing string literals that contain single quotes: every
exclamation mark in the argument is replaced by a single quote. -/
def q (s : String) : String := String.mk (s.data.map (fun c => if c = '!' then sq else c))

/-- Python `\s` for ASCII text: space, tab, newline, carriage return,
vertical tab, form feed. -/
def isPySpace (c : Char) : Bool :=
  c = ' ' || c = '\t' || c = '\n' || c = '\x0d' || c = '\x0b' || c = '\x0c'

/-- Python `\w` for ASCII text: `[A-Za-z0-9_]`. -/
def isPyWord (c : Char) : Bool := c.isAlphanum || c = '_'

/-- The HLASM label / identifier leading-character class `[A-Za-z@#$]`. -/
def isLabelChar1 (c : Char) : Bool := c.isAlpha || c = '@' || c = '#' || c = '$'

/-- Identifier continuation class `[A-Za-z0-9@#$]`. -/
def isIdentRest (c : Char) : Bool := c.isAlphanum || c = '@' || c = '#' || c = '$'

/-- Upper-case identifier leading class `[A-Z@#$]`. -/
def isSymFirst (c : Char) : Bool := ('A' ≤ c && c ≤ 'Z') || c = '@' || c = '#' || c = '$'

/-- Upper-case identifier continuation class `[A-Z0-9@#$]`. -/
def isSymRest (c : Char) : Bool :=
  ('A' ≤ c && c ≤ 'Z') || c.isDigit || c = '@' || c = '#' || c = '$'

/-- Hex digit class `[0-9A-F]` under `re.IGNORECASE`. -/
def isHexDigit (c : Char) : Bool :=
  c.isDigit || ('A' ≤ c && c ≤ 'F') || ('a' ≤ c && c ≤ 'f')

/-- Python `str.upper()` on ASCII text (character-wise upper-casing). -/
def pyUpperL (l : List Char) : List Char := l.map Char.toUpper

/-- Python `str.upper()` on ASCII text. -/
def pyUpper (s : String) : String := String.mk (pyUpperL s.data)

/-- Drop trailing characters satisfying `p` (helper for Python `rstrip`). -/
def rdropWhile (p : Char → Bool) (l : List Char) : List Char :=
  (l.reverse.dropWhile p).reverse

/-- Python `str.strip()` on a character list. -/
def pyStripL (l : List Char) : List Char :=
  rdropWhile isPySpace (l.dropWhile isPySpace)

/-- Python `str.strip()`. -/
def pyStrip (s : String) : String := String.mk (pyStripL s.data)

/-- Python `str.rstrip()` on a character list. -/
def pyRstripL (l : List Char) : List Char := rdropWhile isPySpace l

/-- Python `line.rstrip("\n")` on a character list. -/
def rstripNl (l : List Char) : List Char := rdropWhile (· = '\n') l

/-- Python `str.isdigit()` for ASCII text: non-empty and all digits. -/
def pyIsDigit (s : String) : Bool := !s.data.isEmpty && s.data.all Char.isDigit

/-- Python `str.startswith` (data-level, so the kernel can evaluate it). -/
def pyStartsWith (s pre : String) : Bool := pre.data.isPrefixOf s.data

/-- Python `s[n:]` (data-level character drop). -/
def strDrop (s : String) (n : Nat) : String := String.mk (s.data.drop n)

/-- First character of a string equals `c`. -/
def headIs (c : Char) (l : List Char) : Bool :=
  match l with
  | [] => false
  | d :: _ => d = c

/-- Python whitespace-splitting `str.split()` (no argument): tokens between
runs of whitespace, empties dropped.  Helper that accumulates the current
token in reverse. -/
def pySplitWsAux : List Char → List Char → List (List Char)
  | [], acc => if acc.isEmpty then [] else [acc.reverse]
  | c :: t, acc =>
      if isPySpace c then
        if acc.isEmpty then pySplitWsAux t [] else acc.reverse :: pySplitWsAux t []
      else pySplitWsAux t (c :: acc)

/-- Python whitespace-splitting `str.split()` (no argument). -/
def pySplitWs (l : List Char) : List (List Char) := pySplitWsAux l []

/-- Index of the first occurrence of `pat` as a contiguous sublist
(Python `str.find`); `none` when absent. -/
def findSub (pat : List Char) : List Char → Option Nat
  | [] => if pat.isEmpty then some 0 else none
  | c :: t =>
      if pat.isPrefixOf (c :: t) then some 0
      else (findSub pat t).map (· + 1)

/-- Python `s.split(pat, 1)[1]`: everything after the first occurrence of
`pat`; empty when `pat` does not occur (the source only calls this when the
occurrence exists). -/
def afterFirst (pat l : List Char) : List Char :=
  match findSub pat l with
  | some i => l.drop (i + pat.length)
  | none => []

end HP

namespace RE

/-- A backtracking regex fragment: maps an input suffix to the list of all
possible remainders after the fragment matched a prefix, in the priority
order of Python's backtracking engine (greedy alternatives first). -/
def Rem : Type := List Char → List (List Char)

/-- Empty fragment. -/
def eps : Rem := fun s => [s]

/-- Single character from a class. -/
def cls (p : Char → Bool) : Rem := fun s =>
  match s with
  | [] => []
  | c :: t => if p c then [t] else []

/-- Sequencing: all remainders of `a`, each continued by `b`, preserving
backtracking priority. -/
def seq (a b : Rem) : Rem := fun s => (a s).flatMap b

/-- Alternation, left alternative preferred. -/
def alt (a b : Rem) : Rem := fun s => a s ++ b s

/-- Greedy option `(?:a)?`. -/
def opt (a : Rem) : Rem := alt a eps

/-- Greedy `p*` over a character class; longest match first. -/
def star (p : Char → Bool) : Rem
  | [] => [[]]
  | c :: t => if p c then star p t ++ [c :: t] else [c :: t]

/-- Greedy `p+` over a character class. -/
def plus (p : Char → Bool) : Rem := fun s =>
  match s with
  | [] => []
  | c :: t => if p c then star p t else []

/-- Greedy bounded repetition `p{0,n}` over a character class. -/
def repAtMost (p : Char → Bool) : Nat → Rem
  | 0 => eps
  | n + 1 => fun s =>
      (match s with
       | [] => []
       | c :: t => if p c then repAtMost p n t else []) ++ [s]

/-- Case-insensitive literal. -/
def lit : List Char → Rem
  | [], s => [s]
  | c :: cs, s =>
      match s with
      | [] => []
      | d :: t => if d.toUpper = c.toUpper then lit cs t else []

/-- End anchor `$` (inputs are single lines, so end-of-string suffices). -/
def eoi : Rem := fun s => if s.isEmpty then [[]] else []

/-- Word boundary `\b` placed after a word character: matches when the next
character is not a word character (or at end of input). -/
def wb : Rem := fun s =>
  match s with
  | [] => [[]]
  | c :: _ => if HP.isPyWord c then [] else [s]

/-- `re.match` test: does the pattern match a prefix of `s`? -/
def test (r : Rem) (s : String) : Bool := !(r s.data).isEmpty

/-- `re.match` with one capturing group: run `pre`, then for each remainder
(in backtracking order) run `grp` and keep the characters it consumed,
then require `post` to match; the first overall success yields the
captured text. -/
def cap (pre grp post : Rem) (s : String) : Option String :=
  ((pre s.data).flatMap
      (fun r1 => (grp r1).map (fun r2 => (r1.take (r1.length - r2.length), r2)))).findSome?
    (fun p => if (post p.2).isEmpty then none else some (String.mk p.1))

end RE

namespace LP

open HP RE

/-- `_GO_RE` prefix: `^(?:[A-Za-z@#$]\S{0,7}\s+|\s+)GO(?:IF(?:NOT)?)?` with
`re.IGNORECASE`. -/
def goRePre : Rem :=
  seq (alt (seq (cls isLabelChar1) (seq (repAtMost (fun c => !isPySpace c) 7) (plus isPySpace)))
           (plus isPySpace))
      (seq (lit ['G', 'O']) (opt (seq (lit ['I', 'F']) (opt (lit ['N', 'O', 'T'])))))

/-- `_GO_RE`: `^(?:[A-Za-z@#$]\S{0,7}\s+|\s+)GO(?:IF(?:NOT)?)?\s+(\w+)`;
returns the captured target name. -/
def goMatch (line : String) : Option String :=
  cap (seq goRePre (plus isPySpace)) (plus isPyWord) eps line

/-- `_V_LINK_RE`: `^\s+L\s+\w+\s*,\s*=(?:V|A)\((\w+)\)` (IGNORECASE). -/
def vLinkMatch (line : String) : Option String :=
  cap (seq (plus isPySpace)
        (seq (lit ['L'])
          (seq (plus isPySpace)
            (seq (plus isPyWord)
              (seq (star isPySpace)
                (seq (cls (· = ','))
                  (seq (star isPySpace)
                    (seq (cls (· = '='))
                      (seq (alt (lit ['V']) (lit ['A'])) (cls (· = '(')))))))))))
      (plus isPyWord)
      (cls (· = ')'))
      line

/-- `_LINK_RE`: `^\s+L\s+([A-Za-z@#$][A-Za-z0-9@#$]{0,7})\s*(?:\*.*)?$`. -/
def linkMatch (line : String) : Option String :=
  cap (seq (plus isPySpace) (seq (lit ['L']) (plus isPySpace)))
      (seq (cls isLabelChar1) (repAtMost isIdentRest 7))
      (seq (star isPySpace)
        (seq (opt (seq (cls (· = '*')) (star (fun _ => true)))) eoi))
      line

/-- `_REGISTER_RE`: `^R(?:1[0-5]|[0-9])$` (IGNORECASE). -/
def regTest (s : String) : Bool :=
  test (seq (lit ['R'])
        (seq (alt (seq (cls (· = '1')) (cls (fun c => '0' ≤ c && c ≤ '5')))
                  (cls Char.isDigit))
             eoi)) s

/-- `_OUT_RE`: `^\s*(?:\w+\s+)?OUT\b` (IGNORECASE). -/
def outTest (s : String) : Bool :=
  test (seq (star isPySpace)
        (seq (opt (seq (plus isPyWord) (plus isPySpace)))
          (seq (lit ['O', 'U', 'T']) wb))) s

/-- `_ANY_IN_RE`: `^\w+\s+IN\b` (IGNORECASE). -/
def anyInTest (s : String) : Bool :=
  test (seq (plus isPyWord) (seq (plus isPySpace) (seq (lit ['I', 'N']) wb))) s

/-- `_in_pattern(name)`: `^{re.escape(name)}\s+IN\b` (IGNORECASE). -/
def inTest (name : String) (s : String) : Bool :=
  test (seq (lit name.data) (seq (plus isPySpace) (seq (lit ['I', 'N']) wb))) s

/-- `^{re.escape(name)}\s+EQU\b` (IGNORECASE), from `_find_subroutine`. -/
def equNameTest (name : String) (s : String) : Bool :=
  test (seq (lit name.data) (seq (plus isPySpace) (seq (lit ['E', 'Q', 'U']) wb))) s

/-- `^{re.escape(name)}\s+CSECT\b` (IGNORECASE), from `_find_csect_block`. -/
def csectNameTest (name : String) (s : String) : Bool :=
  test (seq (lit name.data)
        (seq (plus isPySpace) (seq (lit ['C', 'S', 'E', 'C', 'T']) wb))) s

/-- `_CSECT_RE`: `^\w[\w@#$]{0,7}\s+CSECT\b` (IGNORECASE). -/
def csectAnyTest (s : String) : Bool :=
  test (seq (cls isPyWord)
        (seq (repAtMost (fun c => isPyWord c || c = '@' || c = '#' || c = '$') 7)
          (seq (plus isPySpace) (seq (lit ['C', 'S', 'E', 'C', 'T']) wb)))) s

/-- Shared shape of `_MACRO_START_RE` / `_MEND_RE` / `_EJECT_RE`:
`^\s*(?:[A-Za-z@#$]\S{0,7}\s+)?KEYWORD\b` (IGNORECASE).
(`_MACRO_START_RE` is written with `(?:[A-Za-z@#$]\S{0,7}\s+)?` after `^\s*`
in the source; `_MEND_RE` and `_EJECT_RE` use the same shape.) -/
def optLabelKw (kw : List Char) : Rem :=
  seq (star isPySpace)
    (seq (opt (seq (cls isLabelChar1) (seq (repAtMost (fun c => !isPySpace c) 7) (plus isPySpace))))
      (seq (lit kw) wb))

/-- `_MACRO_START_RE`: `^\s*(?:[A-Za-z@#$]\S{0,7}\s+)?MACRO\b`. -/
def macroStartTest (s : String) : Bool := test (optLabelKw ['M', 'A', 'C', 'R', 'O']) s

/-- `_MEND_RE`: `^\s*(?:[A-Za-z@#$]\S{0,7}\s+)?MEND\b`. -/
def mendTest (s : String) : Bool := test (optLabelKw ['M', 'E', 'N', 'D']) s

/-- `_EJECT_RE`: `^\s*(?:[A-Za-z@#$]\S{0,7}\s+)?EJECT\b`. -/
def ejectTest (s : String) : Bool := test (optLabelKw ['E', 'J', 'E', 'C', 'T']) s

/-- `_DS_ALIGN_RE`: `^\s+DS\s+0[FHDB]\b` (IGNORECASE). -/
def dsAlignTest (s : String) : Bool :=
  test (seq (plus isPySpace)
        (seq (lit ['D', 'S'])
          (seq (plus isPySpace)
            (seq (cls (· = '0'))
              (seq (cls (fun c => c.toUpper = 'F' || c.toUpper = 'H' ||
                                  c.toUpper = 'D' || c.toUpper = 'B')) wb))))) s

/-- `_END_RE`: `^\s+END\b` (IGNORECASE). -/
def endStmtTest (s : String) : Bool :=
  test (seq (plus isPySpace) (seq (lit ['E', 'N', 'D']) wb)) s

/-- `_DISPATCH_STYLE_RE`: `^[0-9]+$|^X'[0-9A-F]+'$|^C'.*'$` (IGNORECASE). -/
def dispatchStyleTest (s : String) : Bool :=
  test (alt (seq (plus Char.isDigit) eoi)
        (alt (seq (lit ['X'])
               (seq (cls (· = HP.sq)) (seq (plus isHexDigit) (seq (cls (· = HP.sq)) eoi))))
             (seq (lit ['C'])
               (seq (cls (· = HP.sq))
                 (seq (star (fun _ => true)) (seq (cls (· = HP.sq)) eoi)))))) s

/-- `re.fullmatch(r"[A-Z@#$][A-Z0-9@#$]{0,7}", v)` from `_looks_symbolic`. -/
def symFullTest (s : String) : Bool :=
  test (seq (cls isSymFirst) (seq (repAtMost isSymRest 7) eoi)) s

/-- `re.match(r"^[A-Z@#$][A-Z0-9@#$]{0,11}$", cb)` from the `COPY` branch. -/
def copyNameTest (s : String) : Bool :=
  test (seq (cls isSymFirst) (seq (repAtMost isSymRest 11) eoi)) s

/-- `re.fullmatch(r"[A-Za-z@#$][A-Za-z0-9@#$]{0,7}", t)` from
`_parse_macro_header`. -/
def headerTokTest (s : String) : Bool :=
  test (seq (cls isLabelChar1) (seq (repAtMost isIdentRest 7) eoi)) s

/-- `go_param_re` of `_infer_macro_call_params`:
`^(?:[A-Za-z@#$]\S{0,7}\s+|\s+)GO(?:IF(?:NOT)?)?\s+(&[A-Za-z0-9@#$]+)`. -/
def goParamMatch (line : String) : Option String :=
  cap (seq goRePre (plus isPySpace))
      (seq (cls (· = '&')) (plus isIdentRest))
      eps line

/-- `v_param_re` of `_infer_macro_call_params`:
`^\s+L\s+\w+\s*,\s*=V\((&[A-Za-z0-9@#$]+)\)`. -/
def vParamMatch (line : String) : Option String :=
  cap (seq (plus isPySpace)
        (seq (lit ['L'])
          (seq (plus isPySpace)
            (seq (plus isPyWord)
              (seq (star isPySpace)
                (seq (cls (· = ','))
                  (seq (star isPySpace)
                    (seq (cls (· = '='))
                      (seq (lit ['V']) (cls (· = '(')))))))))))
      (seq (cls (· = '&')) (plus isIdentRest))
      (cls (· = ')'))
      line

/-- `l_param_re` of `_infer_macro_call_params`:
`^\s+L\s+(&[A-Za-z0-9@#$]+)\s*(?:\*.*)?$`. -/
def lParamMatch (line : String) : Option String :=
  cap (seq (plus isPySpace) (seq (lit ['L']) (plus isPySpace)))
      (seq (cls (· = '&')) (plus isIdentRest))
      (seq (star isPySpace)
        (seq (opt (seq (cls (· = '*')) (star (fun _ => true)))) eoi))
      line

/-- `_macro_stmt_re` of `_classify_file_content`:
`^(?:[A-Z@#$]\w*)?\s+MACRO\s*$` (IGNORECASE). -/
def macroStmtTest (s : String) : Bool :=
  test (seq (opt (seq (cls isLabelChar1) (star isPyWord)))
        (seq (plus isPySpace)
          (seq (lit ['M', 'A', 'C', 'R', 'O']) (seq (star isPySpace) eoi)))) s

end LP

namespace IP

open HP

/-- `models.ParsedInstruction`: one HLASM instruction broken into fields. -/
structure ParsedInstruction where
  label : Option String
  opcode : Option String
  operands : List String
  comment : Option String
  raw_text : String
  instruction_type : String
deriving DecidableEq, Repr

/-- `BRANCH_OPCODES` of `instruction_parser.py`. -/
def branchOpcodes : List String :=
  ["B", "BC", "BCT", "BCTR",
   "BE", "BNE", "BH", "BL", "BNH", "BNL",
   "BZ", "BNZ", "BO", "BNO", "BM", "BNM", "BP", "BNP",
   "BR",
   "J", "JC", "JE", "JNE", "JH", "JL", "JNH", "JNL",
   "JZ", "JNZ", "JO", "JNO", "JM", "JNM", "JP", "JNP",
   "NOP", "NOPR",
   "BCR",
   "BXH", "BXLE"]

/-- `CALL_OPCODES`. -/
def callOpcodes : List String :=
  ["BAL", "BALR", "BAS", "BASR",
   "CALL", "LINK", "XCTL",
   "GO", "GOIF", "GOIFNOT", "GOEQ", "GONE", "GOGT", "GOLT", "GOGE", "GOLE"]

/-- `ENTRY_MARKER_OPCODES`. -/
def entryMarkerOpcodes : List String := ["IN", "OUT"]

/-- `SECTION_OPCODES`. -/
def sectionOpcodes : List String := ["CSECT", "DSECT", "RSECT", "COM", "LOCTR", "START"]

/-- `DATA_OPCODES`. -/
def dataOpcodes : List String :=
  ["DC", "DS", "DXD",
   "EQU",
   "ORG", "LTORG",
   "DROP", "USING",
   "END",
   "ENTRY", "EXTRN", "WXTRN",
   "PRINT", "PUNCH", "TITLE", "SPACE", "EJECT",
   "PUSH", "POP",
   "REPRO"]

/-- `MACRO_CTRL_OPCODES`. -/
def macroCtrlOpcodes : List String :=
  ["MACRO", "MEND", "MEXIT", "MNOTE",
   "COPY", "AREAD", "ACTR", "ANOP",
   "AGO", "AIF", "AINSERT",
   "GBLA", "GBLB", "GBLC",
   "LCLA", "LCLB", "LCLC",
   "SETA", "SETB", "SETC"]

/-- `_classify(opcode)`. -/
def classify (opcode : Option String) : String :=
  match opcode with
  | none => "EMPTY"
  | some oc =>
      if oc = "" then "EMPTY"
      else
        let op := pyUpper oc
        if op ∈ branchOpcodes then "BRANCH"
        else if op ∈ callOpcodes then "CALL"
        else if op ∈ entryMarkerOpcodes then "ENTRY_MARKER"
        else if op ∈ sectionOpcodes then "SECTION"
        else if op ∈ dataOpcodes then "DATA"
        else if op ∈ macroCtrlOpcodes then "MACRO_CTRL"
        else "INSTRUCTION"

/-- State-machine core of `InstructionParser._find_operands_end`: scan from
index `i`, tracking quote state and parenthesis depth; returns the index of
the first unquoted, non-parenthesised space. -/
def findOperandsEndAux : List Char → Nat → Option Char → Nat → Nat
  | [], i, _, _ => i
  | c :: t, i, some qc, depth =>
      if c = qc then findOperandsEndAux t (i + 1) none depth
      else findOperandsEndAux t (i + 1) (some qc) depth
  | c :: t, i, none, depth =>
      if c = HP.sq || c = '"' then findOperandsEndAux t (i + 1) (some c) depth
      else if c = '(' then findOperandsEndAux t (i + 1) none (depth + 1)
      else if c = ')' then findOperandsEndAux t (i + 1) none (depth - 1)
      else if c = ' ' && depth = 0 then i
      else findOperandsEndAux t (i + 1) none depth

/-- `InstructionParser._find_operands_end` (the source clamps the depth with
`max(depth - 1, 0)`, which on `Nat` is truncated subtraction). -/
def findOperandsEnd (text : String) : Nat := findOperandsEndAux text.data 0 none 0

/-- State-machine core of `InstructionParser._parse_operands`: split a
comma-delimited operand string respecting parentheses and quotes; each
completed token is stripped and dropped when empty. -/
def parseOperandsAux : List Char → List Char → Option Char → Nat → List String
  | [], cur, _, _ =>
      let last := pyStripL cur
      if last.isEmpty then [] else [String.mk last]
  | c :: t, cur, some qc, depth =>
      if c = qc then parseOperandsAux t (cur ++ [c]) none depth
      else parseOperandsAux t (cur ++ [c]) (some qc) depth
  | c :: t, cur, none, depth =>
      if c = HP.sq || c = '"' then parseOperandsAux t (cur ++ [c]) (some c) depth
      else if c = '(' then parseOperandsAux t (cur ++ [c]) none (depth + 1)
      else if c = ')' then parseOperandsAux t (cur ++ [c]) none (depth - 1)
      else if c = ',' && depth = 0 then
        let token := pyStripL cur
        if token.isEmpty then parseOperandsAux t [] none depth
        else String.mk token :: parseOperandsAux t [] none depth
      else parseOperandsAux t (cur ++ [c]) none depth

/-- `InstructionParser._parse_operands`. -/
def parseOperands (operandsStr : String) : List String :=
  parseOperandsAux operandsStr.data [] none 0

/-- `InstructionParser._split_fields`: split instruction text (already
known to be non-empty and not a comment) into `(opcode, operands, comment)`. -/
def splitFields (text : String) : Option String × Option String × Option String :=
  match pySplitWs text.data with
  | [] => (none, none, none)
  | p0 :: rest =>
      let opcode := pyUpper (String.mk p0)
      match rest with
      | _ =>
        if rest.isEmpty then (some opcode, none, none)
        else
          -- `text.split(None, 1)[1]`: the remainder after the first token
          -- and the whitespace that follows it.
          let restChars := ((text.data.dropWhile isPySpace).drop p0.length).dropWhile isPySpace
          let opEnd := findOperandsEnd (String.mk restChars)
          let operandsStr := pyStripL (restChars.take opEnd)
          let comment := pyStripL (restChars.drop opEnd)
          (some opcode,
           if operandsStr.isEmpty then none else some (String.mk operandsStr),
           if comment.isEmpty then none else some (String.mk comment))

/-- `InstructionParser.parse`: total on every input string — the embedding
returns a `ParsedInstruction` for all `text`, mirroring the fact that the
source never raises. -/
def parse (text : String) (label : Option String := none) : ParsedInstruction :=
  let stripped := pyStripL text.data
  if stripped.isEmpty then
    { label := label, opcode := none, operands := [], comment := none,
      raw_text := text, instruction_type := "EMPTY" }
  else if headIs '*' stripped then
    { label := label, opcode := none, operands := [],
      comment := some (String.mk (pyStripL (stripped.drop 1))),
      raw_text := text, instruction_type := "COMMENT" }
  else
    let (opcode, operandsStr, comment) := splitFields (String.mk stripped)
    let operands := match operandsStr with
      | some s => parseOperands s
      | none => []
    { label := label, opcode := opcode, operands := operands, comment := comment,
      raw_text := text, instruction_type := classify opcode }

end IP

namespace LP

open HP

/-- `light_parser.MacroDefinition`. -/
structure MacroDef where
  name : String
  source_file : String
  header_line : String
  parameters : List String
  lines : List String
  call_params : List String
deriving DecidableEq, Repr, Inhabited

/-- `LightParser._split_statement` on a character list:
drop a trailing newline, treat empty or `*`-led (after `lstrip`) lines as
comments, cut the body at the first `*`, then split into
`(label, opcode, operand-field)` by column position. -/
def splitStatementL (l : List Char) : List Char × List Char × List Char :=
  let text := rstripNl l
  if text.isEmpty || headIs '*' (text.dropWhile isPySpace) then ([], [], [])
  else
    let body := pyRstripL (text.takeWhile (fun c => c ≠ '*'))
    if body.isEmpty then ([], [], [])
    else
      match pySplitWs body with
      | [] => ([], [], [])
      | p0 :: rest =>
        if isPySpace (text.headD ' ') then
          let opcode := p0
          let operands := if rest.isEmpty then [] else pyStripL (afterFirst opcode body)
          ([], opcode, operands)
        else
          match rest with
          | [] => (p0, [], [])
          | p1 :: _ =>
            let operands :=
              match findSub p1 body with
              | some pos => pyStripL (body.drop (pos + p1.length))
              | none => []
            (p0, p1, operands)

/-- `LightParser._split_statement`. -/
def splitStatement (line : String) : String × String × String :=
  let (a, b, c) := splitStatementL line.data
  (String.mk a, String.mk b, String.mk c)

/-- State-machine core of `LightParser._split_operands`: like the
instruction parser's splitter, but a space or tab at depth zero terminates
the operand field (the rest of the line is an inline comment). -/
def splitOperandsAux : List Char → List Char → Nat → Option Char → List (List Char)
  | [], cur, _, _ => if cur.isEmpty then [] else [pyStripL cur]
  | c :: t, cur, depth, some qc =>
      if c = qc then splitOperandsAux t (cur ++ [c]) depth none
      else splitOperandsAux t (cur ++ [c]) depth (some qc)
  | c :: t, cur, depth, none =>
      if c = HP.sq || c = '"' then splitOperandsAux t (cur ++ [c]) depth (some c)
      else if c = '(' then splitOperandsAux t (cur ++ [c]) (depth + 1) none
      else if c = ')' then splitOperandsAux t (cur ++ [c]) (depth - 1) none
      else if c = ',' && depth = 0 then pyStripL cur :: splitOperandsAux t [] depth none
      else if (c = ' ' || c = '\t') && depth = 0 then
        if cur.isEmpty then [] else [pyStripL cur]
      else splitOperandsAux t (cur ++ [c]) depth none

/-- `LightParser._split_operands`: split the operand field on commas at
parenthesis depth zero outside quotes, stop at the first depth-zero
space/tab, strip each token and drop empties. -/
def splitOperands (operandText : String) : List String :=
  ((splitOperandsAux operandText.data [] 0 none).filter (fun o => !o.isEmpty)).map String.mk

/-- `LightParser._looks_symbolic`. -/
def looksSymbolic (value : String) : Bool :=
  let v := pyUpper (pyStrip value)
  if v.data.isEmpty then false
  else if headIs '&' v.data then false
  else if headIs '=' v.data then false
  else if v.data.contains '(' || v.data.contains ')' then false
  else if regTest v then false
  else if dispatchStyleTest v then false
  else symFullTest v

/-- Keep the first occurrence of each element (`list(dict.fromkeys(out))`). -/
def dedupFirst : List String → List String :=
  go []
where
  go : List String → List String → List String
    | _, [] => []
    | seen, x :: t => if x ∈ seen then go seen t else x :: go (x :: seen) t

/-- Association-list lookup (Python `dict` access). -/
def alGet {α : Type} (m : List (String × α)) (k : String) : Option α :=
  match m with
  | [] => none
  | (k', v) :: t => if k' = k then some v else alGet t k

/-- Association-list membership (`k in d`). -/
def alHas {α : Type} (m : List (String × α)) (k : String) : Bool :=
  (alGet m k).isSome

/-- Association-list insert-or-overwrite (`d[k] = v`): an existing key keeps
its position (Python `dict` insertion-order semantics), a new key is
appended at the end. -/
def alSet {α : Type} (m : List (String × α)) (k : String) (v : α) : List (String × α) :=
  match m with
  | [] => [(k, v)]
  | (k', v') :: t => if k' = k then (k, v) :: t else (k', v') :: alSet t k v

/-- `d.setdefault(k, v)`. -/
def alSetD {α : Type} (m : List (String × α)) (k : String) (v : α) : List (String × α) :=
  if alHas m k then m else m ++ [(k, v)]

/-- `LightParser._targets_from_known_macro_call`: bind formal parameters
positionally to actual operands, keep the symbolic actuals of the macro's
call parameters; if that yields nothing, fall back to every symbolic
actual operand. -/
def targetsFromKnownMacroCall (m : MacroDef) (operands : List String) : List String :=
  let byParam : List (String × String) :=
    ((m.parameters.enum.map (fun pi => (pi.2, pi.1))).foldl
      (fun bp pi =>
        if pi.2 < operands.length then alSet bp (pyUpper pi.1) (pyStrip (operands.getD pi.2 ""))
        else bp) [])
  let out : List String :=
    m.call_params.filterMap (fun param =>
      let actual := (alGet byParam (pyUpper param)).getD ""
      if looksSymbolic actual then some (pyUpper actual) else none)
  if !out.isEmpty then dedupFirst out
  else
    dedupFirst (operands.filterMap (fun o => if looksSymbolic o then some (pyUpper o) else none))

/-- `LightParser._targets_from_dispatch_style_macro`: table rows of shape
`num,num,symbol,num` yield the third operand as a callee. -/
def targetsFromDispatch (operands : List String) : List String :=
  match operands with
  | f1 :: f2 :: f3 :: f4 :: _ =>
      let a := pyStrip f1
      let b := pyStrip f2
      let c := pyStrip f3
      let d := pyStrip f4
      if !pyIsDigit a || !pyIsDigit b || !pyIsDigit d then []
      else if !looksSymbolic c then []
      else [pyUpper c]
  | _ => []

end LP

namespace LP

open HP

/-- A call event produced by `LightParser._find_calls_ordered`: either a
direct target or a known-macro invocation with its resolved targets. -/
inductive CallEvent where
  | direct (name : String)
  | macroEv (name : String) (targets : List String)
deriving DecidableEq, Repr

/-- The dedup state and accumulated result of the single-pass scan
(`seen_direct`, `seen_macro_keys`, `result`). -/
structure ScanSt where
  seenD : List String
  seenMK : List (String × List String)
  res : List CallEvent
deriving DecidableEq, Repr

/-- `_emit_direct` of `_find_calls_ordered`: upper-case the name and append
a direct event unless already seen. -/
def emitDirect (st : ScanSt) (name : String) : ScanSt :=
  let n := pyUpper name
  if n ∈ st.seenD then st
  else { st with seenD := st.seenD ++ [n], res := st.res ++ [CallEvent.direct n] }

/-- The opcode-driven part of one `_find_calls_ordered` loop iteration
(after the three line-level regexes failed to fire `continue`). -/
def scanStmt (macros : List (String × MacroDef)) (parent : String) (st : ScanSt)
    (line : String) : ScanSt :=
  let (label, opcode, operandField) := splitStatement line
  if opcode = "" then st
  else if headIs '&' label.data then st
  else
    let opU := pyUpper opcode
    let operands := splitOperands operandField
    if alHas macros opU && opU ≠ pyUpper parent then
      let targets := targetsFromKnownMacroCall ((alGet macros opU).getD default) operands
      if (opU, targets) ∈ st.seenMK then st
      else { st with seenMK := st.seenMK ++ [(opU, targets)],
                     res := st.res ++ [CallEvent.macroEv opU targets] }
    else if opU = "COPY" && !operands.isEmpty then
      let cb := pyUpper (pyStrip (operands.headD ""))
      if cb ≠ "" && copyNameTest cb then emitDirect st cb else st
    else if (opU = "LOAD" || opU = "XCTL" || opU = "LINK") && !operands.isEmpty then
      operands.foldl
        (fun st op =>
          let s := pyUpper (pyStrip op)
          if pyStartsWith s "EP=" then
            let epName := strDrop s 3
            if epName ≠ "" && !pyStartsWith epName "(" && looksSymbolic epName then
              emitDirect st epName
            else st
          else st) st
    else if (opU = "CALL" || opU = "CALLR") && !operands.isEmpty then
      let first := pyUpper (pyStrip (operands.headD ""))
      if !pyStartsWith first "(" && looksSymbolic first then emitDirect st first else st
    else
      let st := (targetsFromDispatch operands).foldl emitDirect st
      if opU = "EQU" && !operands.isEmpty then
        let rhs := pyStrip (operands.headD "")
        if rhs ≠ "*" && looksSymbolic rhs then emitDirect st rhs else st
      else st

/-- One loop iteration of `_find_calls_ordered` (one source line). -/
def scanLine (macros : List (String × MacroDef)) (parent : String) (st : ScanSt)
    (line : String) : ScanSt :=
  if headIs '*' line.data then st
  else
    match goMatch line with
    | some g => emitDirect st g
    | none =>
      match vLinkMatch line with
      | some v => emitDirect st v
      | none =>
        match linkMatch line with
        | some n => if regTest n then scanStmt macros parent st line else emitDirect st n
        | none => scanStmt macros parent st line

/-- `LightParser._find_calls_ordered`: all call events of a block's lines in
source-line order, with per-kind deduplication. -/
def findCallsOrdered (lines : List String) (macros : List (String × MacroDef))
    (parent : String) : List CallEvent :=
  (lines.foldl (scanLine macros parent) { seenD := [], seenMK := [], res := [] }).res

end LP

namespace LP

open HP

/-- `LightParser._parse_macro_header`: extract `(macro name, operand text)`
from a prototype/header line (keyword form or classic prototype form). -/
def parseMacroHeader (line : String) : String × String :=
  let raw := pyRstripL line.data
  if raw.isEmpty || headIs '*' (raw.dropWhile isPySpace) then ("", "")
  else
    let headerBody := pyStripL raw
    let parts := pySplitWs headerBody
    match parts with
    | [] => ("", "")
    | p0 :: rest =>
      let macroIdx := parts.findIdx? (fun tok => pyUpperL tok = ['M', 'A', 'C', 'R', 'O'])
      let nameToken : List Char :=
        match macroIdx with
        | some idx =>
            match (parts.drop (idx + 1)).filterMap (fun tok =>
              let t := rdropWhile (· = ',') (pyStripL tok)
              if !t.isEmpty && !headIs '&' t && headerTokTest (String.mk t) then some t
              else none) with
            | t :: _ => t
            | [] => []
        | none =>
            let cand := if headIs '&' p0 && !rest.isEmpty then rest.headD [] else p0
            if headerTokTest (String.mk cand) then cand else []
      if nameToken.isEmpty then ("", "")
      else
        let name := pyUpperL (pyStripL nameToken)
        let operands :=
          match findSub nameToken headerBody with
          | some i => pyStripL (headerBody.drop (i + nameToken.length))
          | none => []
        (String.mk name, String.mk operands)

/-- `LightParser._infer_macro_call_params`: formal parameters used as
GO / `=V(...)` / plain-L operands inside the macro body, in
first-appearance order. -/
def inferMacroCallParams (macroLines : List String) (formalParams : List String) :
    List String :=
  let formals := formalParams.map pyUpper
  macroLines.foldl
    (fun wanted line =>
      let wanted :=
        match goParamMatch line with
        | some k =>
            let key := pyUpper (pyStrip k)
            if key ∈ formals && key ∉ wanted then wanted ++ [key] else wanted
        | none => wanted
      let wanted :=
        match vParamMatch line with
        | some k =>
            let key := pyUpper (pyStrip k)
            if key ∈ formals && key ∉ wanted then wanted ++ [key] else wanted
        | none => wanted
      match lParamMatch line with
      | some k =>
          let key := pyUpper (pyStrip k)
          if key ∈ formals && key ∉ wanted then wanted ++ [key] else wanted
      | none => wanted)
    []

/-- Inner search of `_discover_macros`: first index `k ≥ start` whose line
matches `_MEND_RE`. -/
def findMendFrom (lines : List String) : Nat → Nat → Option Nat
  | 0, _ => none
  | fuel + 1, k =>
      if lines.length ≤ k then none
      else if mendTest (lines.getD k "") then some k
      else findMendFrom lines fuel (k + 1)

/-- Header search of `_discover_macros`: first index `h ≥ start` whose line
is non-blank and not a comment (may run past the end of the file). -/
def findHeaderFrom (lines : List String) : Nat → Nat → Nat
  | 0, h => h
  | fuel + 1, h =>
      if lines.length ≤ h then h
      else
        let hdr := lines.getD h ""
        if !(pyStripL hdr.data).isEmpty && !headIs '*' (hdr.data.dropWhile isPySpace) then h
        else findHeaderFrom lines fuel (h + 1)

/-- Body collection of `_discover_macros`: append lines from index `j`
until (and including) the `MEND` line; returns the collected lines and the
final index. -/
def collectBody (lines : List String) : Nat → Nat → List String × Nat
  | 0, j => ([], j)
  | fuel + 1, j =>
      if lines.length ≤ j then ([], j)
      else
        let lj := lines.getD j ""
        if mendTest lj then ([lj], j)
        else
          let (rest, jf) := collectBody lines fuel (j + 1)
          (lj :: rest, jf)

/-- The per-file scan loop of `LightParser._discover_macros`, collecting
every macro definition it parses in encounter order.  (The source checks
`name not in macros` at the insertion point; since the scan itself never
consults the partially-built catalog, collecting all parsed definitions
and applying the first-wins insertion afterwards — see `discoverMacros` —
is the same computation.) -/
def scanMacroDefs (srcName : String) (lines : List String) : Nat → Nat → List MacroDef
  | 0, _ => []
  | fuel + 1, i =>
      if lines.length ≤ i then []
      else
        let line := lines.getD i ""
        if !macroStartTest line then scanMacroDefs srcName lines fuel (i + 1)
        else
          match findMendFrom lines (lines.length + 1) (i + 1) with
          | none => scanMacroDefs srcName lines fuel (i + 1)
          | some _ =>
            let inl := parseMacroHeader line
            let headerI :=
              if inl.1 ≠ "" then i else findHeaderFrom lines (lines.length + 1) (i + 1)
            if inl.1 = "" && lines.length ≤ headerI then []
            else
              let nameOps :=
                if inl.1 ≠ "" then inl else parseMacroHeader (lines.getD headerI "")
              if nameOps.1 = "" then scanMacroDefs srcName lines fuel (headerI + 1)
              else
                let params := (splitOperands nameOps.2).filterMap (fun p =>
                  if headIs '&' (pyStripL p.data) then
                    some (pyUpper (String.mk (pyStripL (p.data.takeWhile (· ≠ '=')))))
                  else none)
                let front := (lines.drop i).take (headerI + 1 - i)
                let bodyEnd := collectBody lines (lines.length + 1) (headerI + 1)
                let block := front ++ bodyEnd.1
                let cps := inferMacroCallParams block params
                { name := nameOps.1, source_file := srcName,
                  header_line := lines.getD headerI "", parameters := params,
                  lines := block, call_params := cps } ::
                  scanMacroDefs srcName lines fuel (bodyEnd.2 + 1)

/-- One source file with its (path) name and content lines; file reads are
modelled as always succeeding (an unreadable file in the source simply
contributes no lines and no matches). -/
structure SrcFile where
  name : String
  lines : List String
deriving DecidableEq, Repr

/-- The searchable file universe of a `LightParser` instance: the driver
file, plus the files under `deps_dir` when that directory exists. -/
structure FS where
  driver : SrcFile
  deps : Option (List SrcFile)
deriving DecidableEq, Repr

/-- Lexicographic (code-point) order on character lists, the order Python
uses when sorting the path strings. -/
def charListLt : List Char → List Char → Bool
  | [], [] => false
  | [], _ :: _ => true
  | _ :: _, [] => false
  | c :: cs, d :: ds =>
      if c.toNat < d.toNat then true
      else if d.toNat < c.toNat then false
      else charListLt cs ds

/-- Insert a file into a name-sorted list (ascending, stable). -/
def insFile (x : SrcFile) : List SrcFile → List SrcFile
  | [] => [x]
  | y :: t => if charListLt y.name.data x.name.data then y :: insFile x t else x :: y :: t

/-- `sorted(deps_dir.rglob("*"))`: the dependency files in ascending
lexicographic path order (insertion sort). -/
def sortFiles (l : List SrcFile) : List SrcFile := l.foldr insFile []

/-- `LightParser._search_files`: the driver file first, then every file
under `deps_dir` in sorted order. -/
def searchFiles (cfg : FS) : List SrcFile :=
  cfg.driver :: (match cfg.deps with
                 | none => []
                 | some fs => sortFiles fs)

/-- All macro definitions parsed by `_discover_macros` across the search
files, in encounter order, before the first-wins deduplication. -/
def allMacroDefs (cfg : FS) : List MacroDef :=
  (searchFiles cfg).flatMap (fun f => scanMacroDefs f.name f.lines (f.lines.length + 1) 0)

/-- `LightParser._discover_macros`: the macro catalog; the first definition
of each name wins, later ones are ignored. -/
def discoverMacros (cfg : FS) : List (String × MacroDef) :=
  (allMacroDefs cfg).foldl
    (fun m d => if alHas m d.name then m else m ++ [(d.name, d)]) []

/-- `LightParser._discover_equ_aliases`. -/
def discoverEquAliases (cfg : FS) : List (String × String) :=
  (searchFiles cfg).foldl
    (fun aliases f =>
      f.lines.foldl
        (fun aliases line =>
          let s := splitStatement line
          if s.1 = "" || pyUpper s.2.1 ≠ "EQU" then aliases
          else
            match splitOperands s.2.2 with
            | [] => aliases
            | o :: _ =>
              let rhs := pyUpper (pyStrip o)
              if rhs = "*" then aliases
              else if !looksSymbolic rhs then aliases
              else alSet aliases (pyUpper s.1) rhs)
        aliases)
    []

/-- `IN`-block collection of `_find_subroutine`: append lines after the
`IN` header until an `OUT` line (inclusive) or the next `IN` header
(exclusive) or end of file. -/
def inBlockFrom : List String → List String → List String
  | [], acc => acc
  | l :: t, acc =>
      if outTest l then acc ++ [l]
      else if anyInTest l then acc
      else inBlockFrom t (acc ++ [l])

/-- `EQU`-table collection of `_find_subroutine`: append lines until an
`EJECT` line, inclusive. -/
def ejectBlockFrom : List String → List String
  | [] => []
  | l :: t => if ejectTest l then [l] else l :: ejectBlockFrom t

/-- The per-file line scan of `_find_subroutine`: returns the `IN` block if
one starts in this file, and otherwise threads through the first `EQU`
candidate block. -/
def scanSubLines (name : String) :
    List String → Option (List String) → Option (List String) × Option (List String)
  | [], cand => (none, cand)
  | l :: rest, cand =>
      if inTest name l then (some (l :: inBlockFrom rest []), cand)
      else if cand.isNone && equNameTest name l then
        let s := splitStatement l
        let ops := if pyUpper s.2.1 = "EQU" then splitOperands s.2.2 else []
        let rhs := match ops with
          | [] => ""
          | o :: _ => pyUpper (pyStrip o)
        if rhs ≠ "" && rhs ≠ "*" then scanSubLines name rest (some [l])
        else scanSubLines name rest (some (l :: ejectBlockFrom rest))
      else scanSubLines name rest cand

/-- `LightParser._find_subroutine`: search all files for a
`<name> IN … OUT` block; an `EQU` anchor block is kept as a fallback
candidate (the `IN` form wins across all files). -/
def findSubroutine (cfg : FS) (name : String) : Option (List String) :=
  go (searchFiles cfg) none
where
  go : List SrcFile → Option (List String) → Option (List String)
    | [], cand => cand
    | f :: fs, cand =>
        match scanSubLines name f.lines cand with
        | (some blk, _) => some blk
        | (none, cand2) => go fs cand2

/-- Body collection of `_find_csect_block`: lines after the `CSECT`
statement until a `DS 0x` alignment (inclusive), a different `CSECT`
(exclusive), an `END` (inclusive), an `EJECT` (exclusive), or EOF. -/
def csectBodyFrom (name : String) : List String → List String
  | [] => []
  | l :: t =>
      if dsAlignTest l then [l]
      else if csectAnyTest l && !csectNameTest name l then []
      else if endStmtTest l then [l]
      else if ejectTest l then []
      else l :: csectBodyFrom name t

/-- The per-file scan of `_find_csect_block`. -/
def scanCsectLines (name : String) : List String → Option (List String)
  | [] => none
  | l :: rest =>
      if csectNameTest name l then some (l :: csectBodyFrom name rest)
      else scanCsectLines name rest

/-- `LightParser._find_csect_block`. -/
def findCsectBlock (cfg : FS) (name : String) : Option (List String) :=
  go (searchFiles cfg)
where
  go : List SrcFile → Option (List String)
    | [] => none
    | f :: fs =>
        match scanCsectLines name f.lines with
        | some blk => some blk
        | none => go fs

/-- Python `Path.stem`: the file name without its final suffix (the last
dot separates a suffix only when it is neither the first nor the last
character, per CPython `0 < i < len(name) - 1`). -/
def stemOf (fname : String) : String :=
  let cs := fname.data
  match cs.reverse.findIdx? (· = '.') with
  | none => fname
  | some k =>
      let dotPos := cs.length - 1 - k
      if dotPos = 0 || k = 0 then fname else String.mk (cs.take dotPos)

/-- `LightParser._find_copybook_file`: first dependency file (sorted) whose
stem equals the target name case-insensitively. -/
def findCopybookFile (cfg : FS) (name : String) : Option (List String) :=
  match cfg.deps with
  | none => none
  | some fs =>
      ((sortFiles fs).find? (fun f => pyUpper (stemOf f.name) = pyUpper name)).map
        (fun f => f.lines)

/-- `LightParser._classify_file_content`. -/
def classifyFileContent (name : String) (lines : List String) : String :=
  let hasM := lines.any macroStmtTest
  let hasSub := lines.any (inTest name)
  let hasPgm := lines.any
    (fun l => (findSub ['&', 'P', 'G', 'M', 'N', 'A', 'M', 'E'] (pyUpperL l.data)).isSome)
  if hasM then "macro"
  else if hasSub then "sub"
  else if hasPgm then "asmprogram"
  else "copybook"

/-- The accumulating state of one `LightParser` run: chunk store, flow
adjacency, missing list, visited set, BFS work queue, and the per-node
tag / kind maps. -/
structure LPState where
  chunks : List (String × List String)
  flow : List (String × List String)
  missing : List String
  visited : List String
  queue : List (String × List String)
  nodeTags : List (String × List String)
  chunkKinds : List (String × String)
  macroNodes : List String
  equAliases : List (String × String)
deriving DecidableEq, Repr

/-- `LightParser._resolve_target`: skip names already visited; otherwise
try the macro catalog, then the strategy cascade
(`_find_subroutine` → `_find_csect_block` → `_find_copybook_file`);
record the chunk and enqueue it, or record the name as missing. -/
def resolveTarget (cfg : FS) (macros : List (String × MacroDef)) (st : LPState)
    (target : String) : LPState :=
  if target ∈ st.visited then st
  else
    let st := { st with visited := st.visited ++ [target] }
    let stepA : LPState × Option (List String) :=
      match alGet macros target with
      | some md =>
          ({ st with nodeTags := alSet st.nodeTags target ["macro"],
                     chunkKinds := alSet st.chunkKinds target "macro" },
           some md.lines)
      | none =>
          match findSubroutine cfg target with
          | some ls => ({ st with chunkKinds := alSet st.chunkKinds target "sub" }, some ls)
          | none =>
            match findCsectBlock cfg target with
            | some ls =>
                ({ st with chunkKinds := alSet st.chunkKinds target "csect",
                           nodeTags := alSet st.nodeTags target ["csect"] }, some ls)
            | none =>
              match findCopybookFile cfg target with
              | some ls =>
                  -- (the source updates `chunk_kinds`, then conditionally
                  -- `node_tags` / `macro_nodes` per kind; written here as
                  -- one record update with per-field conditionals)
                  let kind := classifyFileContent target ls
                  ({ st with
                      chunkKinds := alSet st.chunkKinds target kind,
                      nodeTags :=
                        if kind = "macro" then alSet st.nodeTags target ["macro"]
                        else if kind = "asmprogram" then alSet st.nodeTags target ["asmprogram"]
                        else if kind = "copybook" then alSet st.nodeTags target ["copybook"]
                        else st.nodeTags,
                      macroNodes :=
                        if kind = "macro" then st.macroNodes ++ [target]
                        else st.macroNodes },
                   some ls)
              | none => ({ st with chunkKinds := alSet st.chunkKinds target "sub" }, none)
    let st2 := { stepA.1 with flow := alSetD stepA.1.flow target [] }
    match stepA.2 with
    | none => { st2 with missing := st2.missing ++ [target] }
    | some ls =>
        { st2 with chunks := alSet st2.chunks target ls,
                   queue := st2.queue ++ [(target, ls)] }

/-- `if child not in self.flow[parent]: self.flow[parent].append(child)`
(in the source the parent entry always exists at this point; the embedding
creates it when absent to stay total). -/
def flowAppendNew (flow : List (String × List String)) (parent child : String) :
    List (String × List String) :=
  let cur := (alGet flow parent).getD []
  if child ∈ cur then flow else alSet flow parent (cur ++ [child])

/-- The body of the `for call in self._find_calls_ordered(...)` loop inside
`LightParser.run`, for one call event. -/
def stepEvent (cfg : FS) (macros : List (String × MacroDef)) (parent : String)
    (st : LPState) (ev : CallEvent) : LPState :=
  match ev with
  | CallEvent.direct target =>
      resolveTarget cfg macros { st with flow := flowAppendNew st.flow parent target } target
  | CallEvent.macroEv mname targets =>
      let st := { st with flow := flowAppendNew st.flow parent mname }
      let st := { st with flow := alSetD st.flow mname [] }
      let st := { st with nodeTags := alSet st.nodeTags mname ["macro"],
                          chunkKinds := alSet st.chunkKinds mname "macro" }
      let st :=
        if mname ∈ st.visited then st
        else { st with visited := st.visited ++ [mname],
                       queue := st.queue ++ [(mname, ((alGet macros mname).getD default).lines)] }
      targets.foldl
        (fun st t =>
          resolveTarget cfg macros { st with flow := flowAppendNew st.flow mname t } t)
        st

/-- The BFS `while queue:` loop of `LightParser.run`, with explicit fuel
(the source loop terminates because `visited` only grows within a finite
name universe; see the termination theorem). -/
def runLoop (cfg : FS) (macros : List (String × MacroDef)) : Nat → LPState → LPState
  | 0, st => st
  | fuel + 1, st =>
      match st.queue with
      | [] => st
      | (parent, lines) :: rest =>
          let evs := findCallsOrdered lines macros parent
          runLoop cfg macros fuel
            (evs.foldl (stepEvent cfg macros parent) { st with queue := rest })

/-- `LightParser._extract_range`: 1-indexed inclusive line slice. -/
def extractRange (lines : List String) (startLine endLine : Nat) : List String :=
  (lines.drop (startLine - 1)).take (endLine - (startLine - 1))

/-- The state of `LightParser.run` just before its BFS loop: constructor
defaults for `main`, macro chunks written (`_write_macro_chunks`), the
main block extracted and saved, the queue seeded with `main`. -/
def initState (macros : List (String × MacroDef)) (aliases : List (String × String))
    (mainLines : List String) : LPState :=
  let st : LPState :=
    { chunks := [], flow := [], missing := [], visited := [], queue := [],
      nodeTags := [("main", ["entry"])], chunkKinds := [("main", "sub")],
      macroNodes := macros.map (fun nm => nm.1), equAliases := aliases }
  let st := macros.foldl
    (fun st nm =>
      { st with chunkKinds := alSet st.chunkKinds nm.1 "macro",
                chunks := alSet st.chunks nm.1 nm.2.lines })
    st
  { st with chunks := alSet st.chunks "main" mainLines,
            flow := [("main", [])],
            queue := [("main", mainLines)],
            visited := ["main"] }

/-- `LightParser.run` (with explicit fuel for the BFS loop). -/
def run (cfg : FS) (startLine endLine fuel : Nat) : LPState :=
  let macros := discoverMacros cfg
  let aliases := discoverEquAliases cfg
  let mainLines := extractRange cfg.driver.lines startLine endLine
  runLoop cfg macros fuel (initState macros aliases mainLines)

/-- All names appearing in the flow map, as parent keys or inside child
lists. -/
def flowNames (st : LPState) : List String :=
  st.flow.map (fun p => p.1) ++ st.flow.flatMap (fun p => p.2)

end LP

namespace LP

open HP

/-- A node of the `to_nested_flow` call tree: name, type, tags, source
lines, ordered children, the 1-indexed `seq` assigned by the parent
(`none` on the root), and the ref-stub flag. -/
inductive NFNode where
  | node (name : String) (type_ : String) (tags : List String) (src : List String)
         (calls : List NFNode) (seq : Option Nat) (ref : Bool)
deriving Repr

/-- The `seq` field of a node. -/
def NFNode.seqField : NFNode → Option Nat
  | .node _ _ _ _ _ s _ => s

/-- The `calls` list of a node. -/
def NFNode.callsOf : NFNode → List NFNode
  | .node _ _ _ _ c _ _ => c

/-- `child_node["seq"] = seq_num`. -/
def NFNode.withSeq : NFNode → Nat → NFNode
  | .node n t g s c _ r, k => .node n t g s c (some k) r

/-- The flat `chunks` catalogue of `to_nested_flow`:
name ↦ (type, tags, source lines). -/
def chunksDict (st : LPState) : List (String × (String × List String × List String)) :=
  st.chunks.map
    (fun nl => (nl.1, ((alGet st.chunkKinds nl.1).getD "sub",
                       (alGet st.nodeTags nl.1).getD [], nl.2)))

/-- `build_node` of `to_nested_flow`: DFS with a shared `expanded` set;
an already-expanded name yields a lightweight ref stub; each child gets
`seq` set to its 1-indexed call position.  Fuel replaces the implicit
termination of the source recursion (the `expanded` set only grows). -/
def buildNode (st : LPState) : Nat → List String → String → NFNode × List String
  | 0, expanded, name => (NFNode.node name "" [] [] [] none true, expanded)
  | fuel + 1, expanded, name =>
      if name ∈ expanded then (NFNode.node name "" [] [] [] none true, expanded)
      else
        let expanded := name :: expanded
        let info := alGet (chunksDict st) name
        let children := (alGet st.flow name).getD []
        let start : List NFNode × List String × Nat := ([], expanded, 1)
        let fin := children.foldl
          (fun acc child =>
            let r := buildNode st fuel acc.2.1 child
            (acc.1 ++ [r.1.withSeq acc.2.2], r.2, acc.2.2 + 1))
          start
        (NFNode.node name ((info.map (fun i => i.1)).getD "sub")
           ((info.map (fun i => i.2.1)).getD [])
           ((info.map (fun i => i.2.2)).getD [])
           fin.1 none false,
         fin.2.1)

/-- The `tree` component of `LightParser.to_nested_flow`. -/
def nestedTree (st : LPState) (fuel : Nat) : NFNode :=
  (buildNode st fuel [] "main").1

end LP

/-- Modelled from the spec's words (refinement reference for the round-trip
property): split on commas at parenthesis depth zero outside quotes,
keeping every raw field, no stripping, empties preserved. -/
def specSplitAux : List Char → List Char → Option Char → Nat → List (List Char)
  | [], cur, _, _ => [cur]
  | c :: t, cur, some qc, depth =>
      if c = qc then specSplitAux t (cur ++ [c]) none depth
      else specSplitAux t (cur ++ [c]) (some qc) depth
  | c :: t, cur, none, depth =>
      if c = HP.sq || c = '"' then specSplitAux t (cur ++ [c]) (some c) depth
      else if c = '(' then specSplitAux t (cur ++ [c]) none (depth + 1)
      else if c = ')' then specSplitAux t (cur ++ [c]) none (depth - 1)
      else if c = ',' && depth = 0 then cur :: specSplitAux t [] none depth
      else specSplitAux t (cur ++ [c]) none depth

/-- The spec-side top-level comma split of an operand string. -/
def specSplitTopLevel (s : String) : List String :=
  (specSplitAux s.data [] none 0).map String.mk

/-- Join fields back with commas. -/
def joinComma : List (List Char) → List Char
  | [] => []
  | [x] => x
  | x :: y :: t => x ++ ',' :: joinComma (y :: t)

/-- Join a field list back with commas, string version. -/
def joinCommaS (xs : List String) : String :=
  String.mk (joinComma (xs.map (fun x => x.data)))

/-- Modelled from the spec's words: the macro-call targets obtained by
binding the macro's formal parameters positionally to the call's actual
operands and mapping the macro's callParameters through that binding,
keeping only the syntactically-symbolic actuals, in callParameters order. -/
def boundCallTargets (m : LP.MacroDef) (operands : List String) : List String :=
  let byParam : List (String × String) :=
    (m.parameters.enum.map (fun pi => (pi.2, pi.1))).foldl
      (fun bp pi =>
        if pi.2 < operands.length then
          LP.alSet bp (HP.pyUpper pi.1) (HP.pyStrip (operands.getD pi.2 ""))
        else bp) []
  m.call_params.filterMap (fun param =>
    let actual := (LP.alGet byParam (HP.pyUpper param)).getD ""
    if LP.looksSymbolic actual then some (HP.pyUpper actual) else none)

/-- Driver file of the spec's `CHECK` macro scenario. -/
def checkDriver : LP.SrcFile :=
  { name := "m.asm",
    lines := ["         CHECK FIELD1,HANDLER",
              "         MACRO",
              "         CHECK &F,&ERR",
              "         GO    &ERR",
              "         MEND"] }

/-- File set of the `CHECK` scenario. -/
def checkCfg : LP.FS := { driver := checkDriver, deps := none }

/-- The `CHECK` macro as discovered by the catalog builder. -/
def checkMacro : LP.MacroDef := (LP.alGet (LP.discoverMacros checkCfg) "CHECK").getD default

def c5Cfg : LP.FS :=
  { driver := { name := "drv.asm", lines := ["TGT      CSECT", "         DS    0F"] },
    deps := some [{ name := "sub.asm",
                    lines := ["TGT      IN", "         GO    HELPER", "         OUT"] }] }

def c5LexCfg : LP.FS :=
  { driver := { name := "drv.asm", lines := [] },
    deps := some
      [{ name := "bfile.asm", lines := ["LEX      IN", "         L     XB", "         OUT"] },
       { name := "afile.asm", lines := ["LEX      IN", "         L     XA", "         OUT"] }] }

def c5DrvCfg : LP.FS :=
  { driver := { name := "drv.asm",
                lines := ["DRV      IN", "         L     XD", "         OUT"] },
    deps := some [{ name := "dep.asm",
                    lines := ["DRV      IN", "         L     XE", "         OUT"] }] }

/-- The direct events of an event list. -/
def dirEvents (evs : List LP.CallEvent) : List LP.CallEvent :=
  evs.filter (fun e => match e with
    | LP.CallEvent.direct _ => true
    | LP.CallEvent.macroEv _ _ => false)

/-- Register aliases as they appear as sole `L` operands: bare small
integers and `R0`–`R15`. -/
def regAliasExamples : List String :=
  ["0", "1", "2", "3", "4", "5", "6", "7", "8", "9", "10", "11", "12", "13", "14", "15",
   "R0", "R1", "R2", "R3", "R4", "R5", "R6", "R7", "R8", "R9", "R10", "R11", "R12",
   "R13", "R14", "R15"]

/-- A plain load-as-link line with the given sole operand. -/
def regLine (r : String) : String := "         L     " ++ r

/-- The default stub node used for indexed access in statements. -/
def stubNode : LP.NFNode := LP.NFNode.node "" "" [] [] [] none true

/-- Claim property for `to_nested_flow`: in every node of the tree, the
`i`-th child (0-based) carries `seq = i + 1`, recursively. -/
inductive SeqOK : LP.NFNode → Prop where
  | intro : ∀ (name ty : String) (tags src : List String) (calls : List LP.NFNode)
      (seq : Option Nat) (ref : Bool),
      (∀ i, i < calls.length → (calls.getD i stubNode).seqField = some (i + 1)) →
      (∀ c ∈ calls, SeqOK c) →
      SeqOK (LP.NFNode.node name ty tags src calls seq ref)

def c3Cfg : LP.FS :=
  { driver := { name := "c3.asm",
                lines := ["         GO    SUBA",
                          "         CHECK FIELD1,HANDLER",
                          "         CALL  SUBC",
                          "         MACRO",
                          "         CHECK &F,&ERR",
                          "         GO    &ERR",
                          "         MEND"] },
    deps := none }

/-- The name a call event contributes to the parent's flow list: the
direct target, or the invoked macro's name. -/
def evHead : LP.CallEvent → String
  | LP.CallEvent.direct n => n
  | LP.CallEvent.macroEv mn _ => mn

/-- The macro name of a call event, if it is a macro event. -/
def macroHead : LP.CallEvent → Option String
  | LP.CallEvent.direct _ => none
  | LP.CallEvent.macroEv mn _ => some mn

/-- Append each name in order unless already present (the accumulation
`if child not in self.flow[parent]: self.flow[parent].append(child)`
performs over a run's events). -/
def addNew (cur : List String) : List String → List String
  | [] => cur
  | n :: ns => addNew (if n ∈ cur then cur else cur ++ [n]) ns

/-- A block mixing all five direct call forms (GO, L of a V-constant,
COPY, CALL, LOAD EP=) and a macro invocation, on source lines 1..6. -/
def c3bCfg : LP.FS :=
  { driver := { name := "c3b.asm",
                lines := ["         GO    SUBA",
                          "         L     R15,=V(SUBB)",
                          "         COPY  CPYA",
                          "         CALL  SUBC",
                          "         LOAD  EP=SUBD",
                          "         CHECK FIELD1,HANDLER",
                          "         MACRO",
                          "         CHECK &F,&ERR",
                          "         GO    &ERR",
                          "         MEND"] },
    deps := none }

/-- The engine invariant behind the missing/store partition: every visited
name is in exactly one of the chunk store and the missing list, catalog
macros are always chunked, missing and flow names are visited, chunk keys
are visited or catalog macros, and queued parents are visited. -/
structure EngInv (macros : List (String × LP.MacroDef)) (st : LP.LPState) : Prop where
  vis_xor : ∀ n, n ∈ st.visited →
    (LP.alHas st.chunks n = true ∧ n ∉ st.missing) ∨
    (LP.alHas st.chunks n = false ∧ n ∈ st.missing)
  macros_chunk : ∀ n, LP.alHas macros n = true → LP.alHas st.chunks n = true
  missing_vis : ∀ n, n ∈ st.missing → n ∈ st.visited
  chunks_vis : ∀ n, LP.alHas st.chunks n = true → n ∈ st.visited ∨ LP.alHas macros n = true
  flow_vis : ∀ n, n ∈ st.flow.map Prod.fst ++ st.flow.flatMap Prod.snd → n ∈ st.visited
  queue_vis : ∀ p ∈ st.queue, p.1 ∈ st.visited
  chunks_nodup : (st.chunks.map Prod.fst).Nodup

/-- `EngInv` weakened at one name `t`: the flow map may already mention `t`
even though `t` is not yet visited (the transient state between
`flow[parent].append(t)` and `_resolve_target(t)`). -/
structure EngInvAt (macros : List (String × LP.MacroDef)) (st : LP.LPState)
    (t : String) : Prop where
  vis_xor : ∀ n, n ∈ st.visited →
    (LP.alHas st.chunks n = true ∧ n ∉ st.missing) ∨
    (LP.alHas st.chunks n = false ∧ n ∈ st.missing)
  macros_chunk : ∀ n, LP.alHas macros n = true → LP.alHas st.chunks n = true
  missing_vis : ∀ n, n ∈ st.missing → n ∈ st.visited
  chunks_vis : ∀ n, LP.alHas st.chunks n = true → n ∈ st.visited ∨ LP.alHas macros n = true
  flow_vis : ∀ n, n ∈ st.flow.map Prod.fst ++ st.flow.flatMap Prod.snd →
    n ∈ st.visited ∨ n = t
  queue_vis : ∀ p ∈ st.queue, p.1 ∈ st.visited
  chunks_nodup : (st.chunks.map Prod.fst).Nodup

/-- All macro events in a scan state name catalog macros. -/
def MacrosValid (macros : List (String × LP.MacroDef)) (st : LP.ScanSt) : Prop :=
  ∀ mn ts, LP.CallEvent.macroEv mn ts ∈ st.res → LP.alHas macros mn = true

def c1Cfg : LP.FS :=
  { driver := { name := "driver.asm",
                lines := ["MAIN     CSECT",
                          "         GO    SUBA",
                          "         L     SUBD",
                          "         GO    SUBB",
                          "         OUT",
                          "SUBA     IN",
                          "         GO    SUBA2",
                          "         OUT",
                          "SUBA2    IN",
                          "         OUT"] },
    deps := some [{ name := "subd.asm", lines := ["SUBD     IN", "         OUT"] }] }

/-- Over-approximation of every name one line can contribute to the scan:
the three line-level regex captures and every operand-derived form
(stripped/uppercased, raw-uppercased, doubly-uppercased, `EP=`-stripped,
dispatch-table third column), each as upper-cased by `_emit_direct`. -/
def lineCands (line : String) : List String :=
  let ops := LP.splitOperands (LP.splitStatement line).2.2
  ((LP.goMatch line).toList ++ (LP.vLinkMatch line).toList ++
      (LP.linkMatch line).toList).map HP.pyUpper ++
    ops.map (fun o => HP.pyUpper (HP.pyStrip o)) ++
    ops.map HP.pyUpper ++
    ops.map (fun o => HP.pyUpper (HP.pyUpper (HP.pyStrip o))) ++
    ops.map (fun o => HP.pyUpper (HP.strDrop (HP.pyUpper (HP.pyStrip o)) 3)) ++
    (LP.targetsFromDispatch ops).map HP.pyUpper

/-- Every line of every searchable file (driver first, dependency files in
their given order; ordering is irrelevant here). -/
def linesOfFiles (cfg : LP.FS) : List String :=
  cfg.driver.lines ++ (match cfg.deps with
                       | none => []
                       | some fs => fs.flatMap (fun f => f.lines))

/-- The finite universe of names the BFS can ever visit. -/
def candNames (cfg : LP.FS) (macros : List (String × LP.MacroDef)) : List String :=
  "main" :: macros.map Prod.fst ++ (linesOfFiles cfg).flatMap lineCands

/-- The BFS termination measure: twice the unvisited candidate names plus
the queue length. -/
def engMeasure (cfg : LP.FS) (macros : List (String × LP.MacroDef))
    (st : LP.LPState) : Nat :=
  2 * ((candNames cfg macros).toFinset \ st.visited.toFinset).card + st.queue.length

/-- The spec's cyclic-call scenario: the entry block calls A, A calls B,
and B calls A again. -/
def c2Cfg : LP.FS :=
  { driver := { name := "d.asm",
                lines := ["         GO    A",
                          "A        IN",
                          "         GO    B",
                          "         OUT",
                          "B        IN",
                          "         GO    A",
                          "         OUT"] },
    deps := none }

/-- Bound on one call event: a direct target lies in the name universe `U`,
a macro event names a catalog macro and its targets lie in `U`. -/
def EvBound (macros : List (String × LP.MacroDef)) (U : List String) :
    LP.CallEvent → Prop
  | LP.CallEvent.direct n => n ∈ U
  | LP.CallEvent.macroEv mn ts => mn ∈ macros.map Prod.fst ∧ ∀ t ∈ ts, t ∈ U

/-- All events of a scan state are bounded. -/
def ResBound (macros : List (String × LP.MacroDef)) (U : List String)
    (st : LP.ScanSt) : Prop :=
  ∀ ev ∈ st.res, EvBound macros U ev

/-- The queue invariant for termination: every queued block's lines come
from the searchable file set. -/
def QGood (cfg : LP.FS) (st : LP.LPState) : Prop :=
  ∀ p ∈ st.queue, ∀ l ∈ p.2, l ∈ linesOfFiles cfg

/-- Every cataloged macro body line comes from the searchable file set. -/
def MacroLinesGood (cfg : LP.FS) (macros : List (String × LP.MacroDef)) : Prop :=
  ∀ mn md, LP.alGet macros mn = some md → ∀ l ∈ md.lines, l ∈ linesOfFiles cfg

lemma mem_rdropWhile {p : Char → Bool} {l : List Char} {c : Char}
    (h : c ∈ HP.rdropWhile p l) : c ∈ l := by
  unfold HP.rdropWhile at h
  have := (List.dropWhile_sublist (l := l.reverse) (p := p)).mem (List.mem_reverse.mp h)
  exact List.mem_reverse.mp this

lemma mem_pyStripL {l : List Char} {c : Char} (h : c ∈ HP.pyStripL l) : c ∈ l := by
  unfold HP.pyStripL at h
  exact (List.dropWhile_sublist (l := l) (p := HP.isPySpace)).mem (mem_rdropWhile h)

lemma mem_afterFirst {pat l : List Char} {c : Char} (h : c ∈ HP.afterFirst pat l) : c ∈ l := by
  unfold HP.afterFirst at h
  split at h
  · exact (List.drop_sublist _ _).mem h
  · simp at h

lemma star_not_mem_body (text : List Char) :
    '*' ∉ HP.pyRstripL (text.takeWhile (fun c => c ≠ '*')) := by
  intro h
  have h2 : '*' ∈ text.takeWhile (fun c : Char => c ≠ '*') := mem_rdropWhile h
  have := List.mem_takeWhile_imp h2
  simp at this

lemma star_not_mem_splitStatementL (l : List Char) : '*' ∉ (LP.splitStatementL l).2.2 := by
  unfold LP.splitStatementL
  dsimp only
  split
  · simp
  · split
    · simp
    · split
      · simp
      · next p0 rest heq =>
        split
        · -- opcode-in-first-column case
          by_cases hr : rest.isEmpty
          · simp only [hr, if_true]
            intro h
            exact absurd h (by simp)
          · simp only [hr, if_false]
            intro h
            exact star_not_mem_body _ (mem_afterFirst (mem_pyStripL h))
        · split
          · simp
          · intro h
            -- operands from body.drop featuring findSub
            revert h
            split
            · intro h
              exact star_not_mem_body _ ((List.drop_sublist _ _).mem (mem_pyStripL h))
            · simp

/-- C6: `InstructionParser.parse` never raises: it returns a
`ParsedInstruction` for every input, tolerating unbalanced single or double
quotes and unmatched parentheses by treating the remainder as still inside
the unclosed construct, with an extra closing parenthesis clamping the
nesting depth at zero. -/
theorem claim_C6 :
    (∀ (text : String) (label : Option String), (IP.parse text label).raw_text = text) ∧
    IP.parseOperands (HP.q "C!A,B") = [HP.q "C!A,B"] ∧
    IP.parseOperands "D(X,B" = ["D(X,B"] ∧
    IP.findOperandsEnd (HP.q "C!A B,X") = 7 ∧
    IP.findOperandsEnd "A(B C,D" = 7 ∧
    IP.parseOperands ")A,B" = [")A", "B"] := by
  refine ⟨?_, by decide, by decide, by decide, by decide, by decide⟩
  intro text label
  unfold IP.parse
  dsimp only
  split
  · rfl
  · split
    · rfl
    · rfl

/-- C10: the flow engine's statement splitter discards everything from the
first star character onward before label/opcode/operand extraction, so the
operand field never contains a star; for `NAME EQU *` the right-hand side
is dropped, the operand list is empty, and no downstream event sees the
star. -/
theorem claim_C10 :
    (∀ (line : String), '*' ∉ (LP.splitStatement line).2.2.data) ∧
    LP.splitStatement "NAME     EQU   *" = ("NAME", "EQU", "") ∧
    LP.splitOperands "" = [] ∧
    LP.findCallsOrdered ["NAME     EQU   *"] [] "" = [] := by
  refine ⟨?_, by decide, by decide, by decide⟩
  intro line
  show '*' ∉ (LP.splitStatement line).2.2.data
  unfold LP.splitStatement
  dsimp only
  have h := star_not_mem_splitStatementL line.data
  rcases heq : LP.splitStatementL line.data with ⟨a, b, c⟩
  rw [heq] at h
  simpa using h

lemma specSplitAux_ne_nil : ∀ (l cur : List Char) (qc : Option Char) (d : Nat),
    specSplitAux l cur qc d ≠ [] := by
  intro l
  induction l with
  | nil => intro cur qc d; simp [specSplitAux]
  | cons c t ih =>
      intro cur qc d
      match qc with
      | some q0 =>
          simp only [specSplitAux]
          split <;> exact ih _ _ _
      | none =>
          simp only [specSplitAux]
          split
          · exact ih _ _ _
          · split
            · exact ih _ _ _
            · split
              · exact ih _ _ _
              · split
                · simp
                · exact ih _ _ _

lemma joinComma_specSplitAux : ∀ (l cur : List Char) (qc : Option Char) (d : Nat),
    joinComma (specSplitAux l cur qc d) = cur ++ l := by
  intro l
  induction l with
  | nil => intro cur qc d; simp [specSplitAux, joinComma]
  | cons c t ih =>
      intro cur qc d
      match qc with
      | some q0 =>
          simp only [specSplitAux]
          split <;> simpa using ih (cur ++ [c]) _ _
      | none =>
          simp only [specSplitAux]
          split
          · simpa using ih (cur ++ [c]) _ _
          · split
            · simpa using ih (cur ++ [c]) _ _
            · split
              · simpa using ih (cur ++ [c]) _ _
              · split
                · next hcomma =>
                  have hne := specSplitAux_ne_nil t [] none d
                  have hj := ih [] none d
                  match hsp : specSplitAux t [] none d with
                  | [] => exact absurd hsp hne
                  | y :: ys =>
                      rw [hsp] at hj
                      simp only [joinComma, hj]
                      have : (c = ',') := by
                        simp at hcomma; exact hcomma.1
                      simp [this, hj]
                  
                · simpa using ih (cur ++ [c]) _ _

lemma parseOperandsAux_eq_spec : ∀ (l cur : List Char) (qc : Option Char) (d : Nat),
    IP.parseOperandsAux l cur qc d =
      (((specSplitAux l cur qc d).map HP.pyStripL).filter (fun t => !t.isEmpty)).map
        String.mk := by
  intro l
  induction l with
  | nil =>
      intro cur qc d
      simp only [IP.parseOperandsAux, specSplitAux, List.map_cons, List.map_nil]
      by_cases h : (HP.pyStripL cur).isEmpty
      · simp [h, List.filter]
      · simp [h, List.filter]
  | cons c t ih =>
      intro cur qc d
      match qc with
      | some q0 =>
          simp only [IP.parseOperandsAux, specSplitAux]
          split <;> exact ih _ _ _
      | none =>
          simp only [IP.parseOperandsAux, specSplitAux]
          split
          · exact ih _ _ _
          · split
            · exact ih _ _ _
            · split
              · exact ih _ _ _
              · split
                · by_cases h : (HP.pyStripL cur).isEmpty
                  · simp only [h, if_true, List.map_cons, List.filter_cons, Bool.not_true,
                      if_false, cond_false]
                    simpa using ih [] none d
                  · simp only [h, if_false, List.map_cons, List.filter_cons, Bool.not_false,
                      if_true, cond_true, List.map_cons]
                    rw [ih [] none d]
                    simp
                · exact ih _ _ _

/-- C7: operand splitting on commas tracks parenthesis depth and quote
state, so commas inside quoted literals or nested parentheses never split
an operand: `parseOperands` equals the spec-side top-level comma split, and
rejoining the fields with commas recovers the original string. -/
theorem claim_C7 (s : String)
    (h : ∀ f ∈ specSplitTopLevel s, HP.pyStrip f = f ∧ f ≠ "") :
    IP.parseOperands s = specSplitTopLevel s ∧
    joinCommaS (specSplitTopLevel s) = s ∧
    (IP.parseOperands s).length = (specSplitTopLevel s).length := by
  have hkey : IP.parseOperands s =
      (((specSplitAux s.data [] none 0).map HP.pyStripL).filter
        (fun t => !t.isEmpty)).map String.mk :=
    parseOperandsAux_eq_spec s.data [] none 0
  have hfields : ∀ x ∈ specSplitAux s.data [] none 0, HP.pyStripL x = x ∧ x ≠ [] := by
    intro x hx
    have hx' : String.mk x ∈ specSplitTopLevel s := by
      unfold specSplitTopLevel
      exact List.mem_map_of_mem _ hx
    obtain ⟨h1, h2⟩ := h _ hx'
    constructor
    · have h3 : String.mk (HP.pyStripL x) = String.mk x := h1
      exact congrArg String.data h3
    · intro hx0
      exact h2 (by rw [hx0])
  have hmap : (specSplitAux s.data [] none 0).map HP.pyStripL =
      specSplitAux s.data [] none 0 := by
    have := List.map_congr_left (l := specSplitAux s.data [] none 0)
      (f := HP.pyStripL) (g := id) (fun a ha => (hfields a ha).1)
    simpa using this
  have hfil : ((specSplitAux s.data [] none 0).filter (fun t => !t.isEmpty)) =
      specSplitAux s.data [] none 0 := by
    apply List.filter_eq_self.mpr
    intro a ha
    simpa using (hfields a ha).2
  have hmain : IP.parseOperands s = specSplitTopLevel s := by
    rw [hkey, hmap, hfil]; rfl
  refine ⟨hmain, ?_, by rw [hmain]⟩
  unfold joinCommaS specSplitTopLevel
  have hdata : ((specSplitAux s.data [] none 0).map String.mk).map
      (fun x => x.data) = specSplitAux s.data [] none 0 := by
    rw [List.map_map, show ((fun x : String => x.data) ∘ String.mk) = id from rfl,
      List.map_id]
  rw [hdata, joinComma_specSplitAux]
  rfl

theorem claim_C7_witness :
    ((∀ f ∈ specSplitTopLevel (HP.q "C!HELLO,WORLD!,80"), HP.pyStrip f = f ∧ f ≠ "") ∧
      IP.parseOperands (HP.q "C!HELLO,WORLD!,80") =
        specSplitTopLevel (HP.q "C!HELLO,WORLD!,80") ∧
      joinCommaS (specSplitTopLevel (HP.q "C!HELLO,WORLD!,80")) = HP.q "C!HELLO,WORLD!,80" ∧
      (IP.parseOperands (HP.q "C!HELLO,WORLD!,80")).length =
        (specSplitTopLevel (HP.q "C!HELLO,WORLD!,80")).length) ∧
    ((∀ f ∈ specSplitTopLevel "D(X,B),4", HP.pyStrip f = f ∧ f ≠ "") ∧
      IP.parseOperands "D(X,B),4" = specSplitTopLevel "D(X,B),4" ∧
      joinCommaS (specSplitTopLevel "D(X,B),4") = "D(X,B),4" ∧
      (IP.parseOperands "D(X,B),4").length = (specSplitTopLevel "D(X,B),4").length) ∧
    IP.parseOperands (HP.q "C!HELLO,WORLD!,80") = [HP.q "C!HELLO,WORLD!", "80"] ∧
    IP.parseOperands "D(X,B),4" = ["D(X,B)", "4"] ∧
    LP.splitOperands (HP.q "C!HELLO,WORLD!,80") = [HP.q "C!HELLO,WORLD!", "80"] ∧
    LP.splitOperands "D(X,B),4" = ["D(X,B)", "4"] :=
  ⟨⟨by decide, claim_C7 _ (by decide)⟩, ⟨by decide, claim_C7 _ (by decide)⟩,
   by decide, by decide, by decide, by decide⟩

/-- C4 counterexample: the original claim says the every-symbolic-operand
fallback applies only when the macro defines no explicit call pattern, but
`CHECK` has `call_params = [&ERR]` and the call `CHECK FIELD1,123` binds a
non-symbolic actual to `&ERR`, so the positional binding yields no target
and the fallback still fires, reporting `FIELD1`. -/
theorem claim_C4_counterexample :
    checkMacro.call_params = ["&ERR"] ∧
    boundCallTargets checkMacro ["FIELD1", "123"] = [] ∧
    LP.targetsFromKnownMacroCall checkMacro ["FIELD1", "123"] = ["FIELD1"] := by
  refine ⟨by decide, by decide, by decide⟩

/-- C4 amended: the macro-event targets are the positionally-bound
symbolic call-parameter actuals in callParameters order, and the generic
every-symbolic-operand fallback applies exactly when that binding yields no
symbolic target; the spec's CHECK/HANDLER scenario holds: the call yields a
macro event with target HANDLER, which is queued and resolved. -/
theorem claim_C4_amended :
    (∀ (m : LP.MacroDef) (operands : List String),
      LP.targetsFromKnownMacroCall m operands =
        if (boundCallTargets m operands).isEmpty then
          LP.dedupFirst (operands.filterMap
            (fun o => if LP.looksSymbolic o then some (HP.pyUpper o) else none))
        else LP.dedupFirst (boundCallTargets m operands)) ∧
    (LP.alGet (LP.discoverMacros checkCfg) "CHECK").map
      (fun m => (m.parameters, m.call_params)) = some (["&F", "&ERR"], ["&ERR"]) ∧
    LP.findCallsOrdered ["         CHECK FIELD1,HANDLER"] (LP.discoverMacros checkCfg)
      "main" = [LP.CallEvent.macroEv "CHECK" ["HANDLER"]] ∧
    LP.targetsFromKnownMacroCall checkMacro ["FIELD1", "HANDLER"] = ["HANDLER"] ∧
    "HANDLER" ∈ (LP.run checkCfg 1 1 20).visited ∧
    LP.alGet (LP.run checkCfg 1 1 20).flow "CHECK" = some ["HANDLER"] := by
  refine ⟨?_, by decide, by decide, by decide, by decide, by decide⟩
  intro m operands
  unfold LP.targetsFromKnownMacroCall boundCallTargets
  dsimp only
  by_cases h : (m.call_params.filterMap (fun param =>
      let actual := (LP.alGet ((m.parameters.enum.map (fun pi => (pi.2, pi.1))).foldl
        (fun bp pi =>
          if pi.2 < operands.length then
            LP.alSet bp (HP.pyUpper pi.1) (HP.pyStrip (operands.getD pi.2 ""))
          else bp) []) (HP.pyUpper param)).getD ""
      if LP.looksSymbolic actual then some (HP.pyUpper actual) else none)).isEmpty
  · simp only [h, Bool.not_true, Bool.false_eq_true, if_false, if_true]
  · rw [Bool.not_eq_true] at h
    simp only [h, Bool.not_false, Bool.false_eq_true, if_false, if_true]

lemma alGet_append_single {α : Type} (m : List (String × α)) (k name : String) (v : α) :
    LP.alGet (m ++ [(k, v)]) name =
      match LP.alGet m name with
      | some w => some w
      | none => if k = name then some v else none := by
  induction m with
  | nil => simp [LP.alGet]
  | cons p t ih =>
      by_cases h : p.1 = name
      · simp [LP.alGet, h]
      · simp only [List.cons_append, LP.alGet, h, if_false]
        exact ih

lemma discoverMacros_foldl (ds : List LP.MacroDef) (name : String) :
    ∀ (acc : List (String × LP.MacroDef)),
    LP.alGet (ds.foldl (fun m d => if LP.alHas m d.name then m else m ++ [(d.name, d)]) acc)
        name =
      match LP.alGet acc name with
      | some w => some w
      | none => ds.find? (fun d => d.name = name) := by
  induction ds with
  | nil =>
      intro acc
      simp only [List.foldl_nil, List.find?_nil]
      cases h : LP.alGet acc name <;> simp
  | cons d t ih =>
      intro acc
      simp only [List.foldl_cons]
      by_cases hn : d.name = name
      · subst hn
        have hfind : (d :: t).find? (fun e => decide (e.name = d.name)) = some d := by
          apply List.find?_cons_of_pos
          simp
        rw [hfind]
        by_cases hhas : LP.alHas acc d.name
        · simp only [hhas, if_true]
          rw [ih acc]
          unfold LP.alHas at hhas
          cases hget : LP.alGet acc d.name with
          | none => rw [hget] at hhas; simp at hhas
          | some w => simp
        · simp only [hhas, Bool.false_eq_true, if_false]
          rw [ih (acc ++ [(d.name, d)]), alGet_append_single]
          cases hget : LP.alGet acc d.name with
          | none => simp
          | some w => simp
      · have hfind : (d :: t).find? (fun e => decide (e.name = name)) =
            t.find? (fun e => decide (e.name = name)) := by
          apply List.find?_cons_of_neg
          simp [hn]
        rw [hfind]
        by_cases hhas : LP.alHas acc d.name
        · simp only [hhas, if_true]
          exact ih acc
        · simp only [hhas, Bool.false_eq_true, if_false]
          rw [ih (acc ++ [(d.name, d)]), alGet_append_single]
          cases hget : LP.alGet acc name with
          | none => simp [if_neg hn]
          | some w => simp

/-- C9: macro catalog discovery keeps the first definition of each name
encountered in driver-then-sorted-dependency order, with all its fields
(source file, parameters, body lines, call parameters); later definitions
with the same name are ignored. -/
theorem claim_C9 :
    (∀ (cfg : LP.FS) (name : String),
      LP.alGet (LP.discoverMacros cfg) name =
        (LP.allMacroDefs cfg).find? (fun d => d.name = name)) ∧
    (let dupCfg : LP.FS :=
      { driver := { name := "drv.asm",
                    lines := ["         MACRO",
                              "         FOO   &A",
                              "         GO    &A",
                              "         MEND"] },
        deps := some [{ name := "other.asm",
                        lines := ["         MACRO",
                                  "         FOO   &B,&C",
                                  "         MEND"] }] }
     (LP.alGet (LP.discoverMacros dupCfg) "FOO").map
        (fun m => (m.source_file, m.parameters, m.call_params, m.lines.length)) =
       some ("drv.asm", ["&A"], ["&A"], 4)) := by
  constructor
  · intro cfg name
    unfold LP.discoverMacros
    rw [discoverMacros_foldl]
    rfl
  · decide

lemma alGet_alSet_self {α : Type} (m : List (String × α)) (k : String) (v : α) :
    LP.alGet (LP.alSet m k v) k = some v := by
  induction m with
  | nil => simp [LP.alSet, LP.alGet]
  | cons p t ih =>
      by_cases h : p.1 = k
      · simp [LP.alSet, LP.alGet, h]
      · simp [LP.alSet, LP.alGet, h, ih]

/-- C5: when a target matches both an explicit IN/OUT entry-marker block
and a CSECT section block, resolution stores the IN/OUT block's lines as
the chunk (kind `sub`); the search visits the driver file first and then
the dependency files in lexicographic order, first match winning. -/
theorem claim_C5 (cfg : LP.FS) (macros : List (String × LP.MacroDef)) (st : LP.LPState)
    (target : String) (b c : List String)
    (h1 : target ∉ st.visited)
    (h2 : LP.alGet macros target = none)
    (h3 : LP.findSubroutine cfg target = some b)
    (h4 : LP.findCsectBlock cfg target = some c) :
    (LP.alGet (LP.resolveTarget cfg macros st target).chunks target = some b ∧
     LP.alGet (LP.resolveTarget cfg macros st target).chunkKinds target = some "sub") ∧
    LP.findSubroutine c5Cfg "TGT" =
      some ["TGT      IN", "         GO    HELPER", "         OUT"] ∧
    LP.findCsectBlock c5Cfg "TGT" = some ["TGT      CSECT", "         DS    0F"] ∧
    LP.alGet (LP.run c5Cfg 1 0 10).chunks "TGT" = none ∧
    LP.searchFiles c5LexCfg = [c5LexCfg.driver,
      { name := "afile.asm", lines := ["LEX      IN", "         L     XA", "         OUT"] },
      { name := "bfile.asm", lines := ["LEX      IN", "         L     XB", "         OUT"] }] ∧
    LP.findSubroutine c5LexCfg "LEX" =
      some ["LEX      IN", "         L     XA", "         OUT"] ∧
    LP.findSubroutine c5DrvCfg "DRV" =
      some ["DRV      IN", "         L     XD", "         OUT"] := by
  refine ⟨?_, by decide, by decide, by decide, by decide, by decide, by decide⟩
  unfold LP.resolveTarget
  rw [if_neg h1]
  dsimp only
  rw [h2, h3]
  dsimp only
  constructor
  · exact alGet_alSet_self _ _ _
  · exact alGet_alSet_self _ _ _

theorem claim_C5_witness :
    ("TGT" ∉ (LP.initState [] [] []).visited ∧
     LP.alGet ([] : List (String × LP.MacroDef)) "TGT" = none ∧
     LP.findSubroutine c5Cfg "TGT" =
       some ["TGT      IN", "         GO    HELPER", "         OUT"] ∧
     LP.findCsectBlock c5Cfg "TGT" = some ["TGT      CSECT", "         DS    0F"]) ∧
    (LP.alGet (LP.resolveTarget c5Cfg [] (LP.initState [] [] []) "TGT").chunks "TGT" =
       some ["TGT      IN", "         GO    HELPER", "         OUT"] ∧
     LP.alGet (LP.resolveTarget c5Cfg [] (LP.initState [] [] []) "TGT").chunkKinds "TGT" =
       some "sub") :=
  ⟨⟨by decide, by decide, by decide, by decide⟩,
   (claim_C5 c5Cfg [] (LP.initState [] [] []) "TGT"
      ["TGT      IN", "         GO    HELPER", "         OUT"]
      ["TGT      CSECT", "         DS    0F"]
      (by decide) (by decide) (by decide) (by decide)).1⟩

lemma scanLine_L_register (macros : List (String × LP.MacroDef)) (parent : String)
    (line : String)
    (hstar : HP.headIs '*' line.data = false)
    (hgo : LP.goMatch line = none)
    (hv : LP.vLinkMatch line = none)
    (hlink : (match LP.linkMatch line with
              | some n => LP.regTest n
              | none => true) = true)
    (hsplit : (LP.splitStatement line).2.1 = "L")
    (hlabel : HP.headIs '&' (LP.splitStatement line).1.data = false)
    (hdisp : LP.targetsFromDispatch (LP.splitOperands (LP.splitStatement line).2.2) = []) :
    dirEvents (LP.findCallsOrdered [line] macros parent) = [] := by
  have hstmt : ∀ st : LP.ScanSt, st.res = [] →
      dirEvents (LP.scanStmt macros parent st line).res = [] := by
    intro st hres
    unfold LP.scanStmt
    rcases hss : LP.splitStatement line with ⟨lab, op, opf⟩
    rw [hss] at hsplit hlabel hdisp
    simp only at hsplit hlabel hdisp
    subst hsplit
    dsimp only
    rw [if_neg (by decide)]
    rw [hlabel]
    simp only [Bool.false_eq_true, if_false]
    have hup : HP.pyUpper "L" = "L" := by decide
    rw [hup]
    by_cases hm : (LP.alHas macros "L" && "L" ≠ HP.pyUpper parent) = true
    · rw [if_pos hm]
      split
      · simp [hres, dirEvents]
      · simp [hres, dirEvents]
    · rw [if_neg hm]
      rw [if_neg (by simp)]
      rw [if_neg (by simp)]
      rw [if_neg (by simp)]
      rw [hdisp]
      simp only [List.foldl_nil]
      rw [if_neg (by simp)]
      simp [hres, dirEvents]
  unfold LP.findCallsOrdered
  simp only [List.foldl_cons, List.foldl_nil]
  unfold LP.scanLine
  rw [hstar]
  simp only [Bool.false_eq_true, if_false]
  rw [hgo, hv]
  cases hl : LP.linkMatch line with
  | some n =>
      rw [hl] at hlink
      dsimp only at hlink ⊢
      rw [if_pos hlink]
      exact hstmt _ rfl
  | none =>
      dsimp only
      exact hstmt _ rfl

/-- C8: a plain load-as-link line whose sole operand is a register alias
(a bare small integer or `R0`..`R15`) yields no call target: the ordered
scan emits no direct event for such a line, for any macro catalog and any
parent. -/
theorem claim_C8 (macros : List (String × LP.MacroDef)) (parent : String) (r : String)
    (h : r ∈ regAliasExamples) :
    dirEvents (LP.findCallsOrdered [regLine r] macros parent) = [] := by
  fin_cases h <;>
    exact scanLine_L_register macros parent _ (by decide) (by decide) (by decide)
      (by decide) (by decide) (by decide) (by decide)

theorem claim_C8_witness :
    ("R5" ∈ regAliasExamples ∧
      dirEvents (LP.findCallsOrdered [regLine "R5"] [] "main") = []) ∧
    ("5" ∈ regAliasExamples ∧
      dirEvents (LP.findCallsOrdered [regLine "5"] [] "main") = []) :=
  ⟨⟨by decide, claim_C8 [] "main" "R5" (by decide)⟩,
   ⟨by decide, claim_C8 [] "main" "5" (by decide)⟩⟩

lemma seqField_withSeq (n : LP.NFNode) (k : Nat) :
    (n.withSeq k).seqField = some k := by
  cases n; rfl

lemma seqOK_withSeq {n : LP.NFNode} (h : SeqOK n) (k : Nat) : SeqOK (n.withSeq k) := by
  cases h with
  | intro name ty tags src calls seq ref h1 h2 =>
      exact SeqOK.intro name ty tags src calls (some k) ref h1 h2

lemma buildFold_ok (st : LP.LPState) (fuel : Nat)
    (ih : ∀ (exp : List String) (name : String), SeqOK (LP.buildNode st fuel exp name).1) :
    ∀ (children : List String) (acc : List LP.NFNode × List String × Nat),
    acc.2.2 = acc.1.length + 1 →
    (∀ i, i < acc.1.length → (acc.1.getD i stubNode).seqField = some (i + 1)) →
    (∀ c ∈ acc.1, SeqOK c) →
    ((∀ i, i < (children.foldl (fun acc child =>
        let r := LP.buildNode st fuel acc.2.1 child
        (acc.1 ++ [r.1.withSeq acc.2.2], r.2, acc.2.2 + 1)) acc).1.length →
      ((children.foldl (fun acc child =>
        let r := LP.buildNode st fuel acc.2.1 child
        (acc.1 ++ [r.1.withSeq acc.2.2], r.2, acc.2.2 + 1)) acc).1.getD i stubNode).seqField
        = some (i + 1)) ∧
     (∀ c ∈ (children.foldl (fun acc child =>
        let r := LP.buildNode st fuel acc.2.1 child
        (acc.1 ++ [r.1.withSeq acc.2.2], r.2, acc.2.2 + 1)) acc).1, SeqOK c)) := by
  intro children
  induction children with
  | nil =>
      intro acc h1 h2 h3
      exact ⟨h2, h3⟩
  | cons c t iht =>
      intro acc h1 h2 h3
      simp only [List.foldl_cons]
      apply iht
      · simp [h1]
      · intro i hi
        simp only [List.length_append, List.length_cons, List.length_nil] at hi
        by_cases hlt : i < acc.1.length
        · rw [List.getD_append _ _ _ _ hlt]
          exact h2 i hlt
        · have hieq : i = acc.1.length := by omega
          subst hieq
          rw [List.getD_append_right _ _ _ _ (Nat.le_refl _)]
          simp only [Nat.sub_self]
          rw [h1]
          simp [List.getD, seqField_withSeq]
      · intro x hx
        rcases List.mem_append.mp hx with hx | hx
        · exact h3 x hx
        · simp only [List.mem_singleton] at hx
          subst hx
          exact seqOK_withSeq (ih _ _) _

lemma buildNode_seqOK : ∀ (fuel : Nat) (st : LP.LPState) (exp : List String) (name : String),
    SeqOK (LP.buildNode st fuel exp name).1 := by
  intro fuel
  induction fuel with
  | zero =>
      intro st exp name
      exact SeqOK.intro _ _ _ _ [] none true (by intro i hi; simp at hi) (by intro c hc; simp at hc)
  | succ fuel ih =>
      intro st exp name
      unfold LP.buildNode
      by_cases h : name ∈ exp
      · rw [if_pos h]
        exact SeqOK.intro _ _ _ _ [] none true (by intro i hi; simp at hi)
          (by intro c hc; simp at hc)
      · rw [if_neg h]
        dsimp only
        have hfold := buildFold_ok st fuel (fun e n => ih st e n)
          ((LP.alGet st.flow name).getD []) ([], name :: exp, 1) rfl
          (by intro i hi; simp at hi) (by intro c hc; simp at hc)
        exact SeqOK.intro _ _ _ _ _ none false hfold.1 hfold.2

lemma emitDirect_res (st : LP.ScanSt) (n : String) :
    ∃ d, (LP.emitDirect st n).res = st.res ++ d := by
  unfold LP.emitDirect
  dsimp only
  split
  · exact ⟨[], by simp⟩
  · exact ⟨_, rfl⟩

lemma res_mono_foldl {α : Type} (f : LP.ScanSt → α → LP.ScanSt)
    (hf : ∀ s a, ∃ d, (f s a).res = s.res ++ d) :
    ∀ (l : List α) (s : LP.ScanSt), ∃ d, (l.foldl f s).res = s.res ++ d := by
  intro l
  induction l with
  | nil => intro s; exact ⟨[], by simp⟩
  | cons a t ih =>
      intro s
      simp only [List.foldl_cons]
      rcases hf s a with ⟨d1, hd1⟩
      rcases ih (f s a) with ⟨d2, hd2⟩
      exact ⟨d1 ++ d2, by rw [hd2, hd1, List.append_assoc]⟩

lemma scanStmt_res (macros : List (String × LP.MacroDef)) (parent : String)
    (st : LP.ScanSt) (line : String) :
    ∃ d, (LP.scanStmt macros parent st line).res = st.res ++ d := by
  unfold LP.scanStmt
  rcases hss : LP.splitStatement line with ⟨lab, op, opf⟩
  dsimp only
  split
  · exact ⟨[], by simp⟩
  · split
    · exact ⟨[], by simp⟩
    · split
      · split
        · exact ⟨[], by simp⟩
        · exact ⟨_, rfl⟩
      · split
        · split
          · exact emitDirect_res _ _
          · exact ⟨[], by simp⟩
        · split
          · refine res_mono_foldl _ ?_ _ _
            intro s a
            dsimp only
            split
            · split
              · exact emitDirect_res _ _
              · exact ⟨[], by simp⟩
            · exact ⟨[], by simp⟩
          · split
            · split
              · exact emitDirect_res _ _
              · exact ⟨[], by simp⟩
            · rcases res_mono_foldl LP.emitDirect (fun s a => emitDirect_res s a)
                (LP.targetsFromDispatch (LP.splitOperands opf)) st with ⟨d1, hd1⟩
              split
              · split
                · rcases emitDirect_res
                    ((LP.targetsFromDispatch (LP.splitOperands opf)).foldl
                      LP.emitDirect st) _ with ⟨d2, hd2⟩
                  exact ⟨d1 ++ d2, by rw [hd2, hd1, List.append_assoc]⟩
                · exact ⟨d1, hd1⟩
              · exact ⟨d1, hd1⟩

lemma scanLine_res (macros : List (String × LP.MacroDef)) (parent : String)
    (st : LP.ScanSt) (line : String) :
    ∃ d, (LP.scanLine macros parent st line).res = st.res ++ d := by
  unfold LP.scanLine
  split
  · exact ⟨[], by simp⟩
  · split
    · exact emitDirect_res _ _
    · split
      · exact emitDirect_res _ _
      · split
        · split
          · exact scanStmt_res _ _ _ _
          · exact emitDirect_res _ _
        · exact scanStmt_res _ _ _ _

lemma findCallsOrdered_lineOrder (macros : List (String × LP.MacroDef)) (parent : String)
    (lines more : List String) :
    ∃ d, LP.findCallsOrdered (lines ++ more) macros parent =
      LP.findCallsOrdered lines macros parent ++ d := by
  unfold LP.findCallsOrdered
  rw [List.foldl_append]
  exact res_mono_foldl _ (fun s l => scanLine_res macros parent s l) more _

lemma addNew_go (l : List String) : ∀ (cur seen : List String),
    (∀ x, x ∈ cur ↔ x ∈ seen) →
    addNew cur l = cur ++ LP.dedupFirst.go seen l := by
  induction l with
  | nil => intro cur seen _; simp [addNew, LP.dedupFirst.go]
  | cons n t ih =>
      intro cur seen hcs
      rw [addNew]
      unfold LP.dedupFirst.go
      by_cases hn : n ∈ cur
      · rw [if_pos hn, if_pos ((hcs n).mp hn)]
        exact ih cur seen hcs
      · rw [if_neg hn, if_neg (fun hs => hn ((hcs n).mpr hs))]
        rw [ih (cur ++ [n]) (n :: seen) (by
          intro x
          simp only [List.mem_append, List.mem_singleton, List.mem_cons, hcs x]
          tauto)]
        simp

lemma addNew_nil_dedup (l : List String) : addNew [] l = LP.dedupFirst l := by
  have h := addNew_go l [] [] (by intro x; simp)
  rw [List.nil_append] at h
  exact h

lemma alGet_alSet_ne {α : Type} (m : List (String × α)) (k q : String) (v : α)
    (h : k ≠ q) : LP.alGet (LP.alSet m k v) q = LP.alGet m q := by
  induction m with
  | nil => simp [LP.alSet, LP.alGet, h]
  | cons p t ih =>
      by_cases hp : p.1 = k
      · rw [LP.alSet, if_pos hp]
        rw [LP.alGet, LP.alGet, if_neg h, if_neg (by rw [hp]; exact h)]
      · rw [LP.alSet, if_neg hp]
        rw [LP.alGet, LP.alGet]
        split
        · rfl
        · exact ih

lemma alGet_alSetD_keep {α : Type} (m : List (String × α)) (k q : String)
    (v w : α) (h : LP.alGet m q = some w) :
    LP.alGet (LP.alSetD m k v) q = some w := by
  unfold LP.alSetD
  split
  · exact h
  · rw [alGet_append_single, h]

lemma alGet_flowAppendNew_ne (f : List (String × List String)) (p c q : String)
    (h : p ≠ q) : LP.alGet (LP.flowAppendNew f p c) q = LP.alGet f q := by
  unfold LP.flowAppendNew
  dsimp only
  split
  · rfl
  · exact alGet_alSet_ne f p q _ h

lemma alGet_flowAppendNew_self (f : List (String × List String)) (p c : String)
    (cur : List String) (h : LP.alGet f p = some cur) :
    LP.alGet (LP.flowAppendNew f p c) p =
      some (if c ∈ cur then cur else cur ++ [c]) := by
  unfold LP.flowAppendNew
  dsimp only
  rw [h]
  simp only [Option.getD_some]
  by_cases hc : c ∈ cur
  · rw [if_pos hc, if_pos hc]
    exact h
  · rw [if_neg hc, if_neg hc]
    exact alGet_alSet_self f p (cur ++ [c])

lemma resolveTarget_flow_at (cfg : LP.FS) (macros : List (String × LP.MacroDef))
    (st : LP.LPState) (target q : String) (cur : List String)
    (h : LP.alGet st.flow q = some cur) :
    LP.alGet (LP.resolveTarget cfg macros st target).flow q = some cur := by
  unfold LP.resolveTarget
  by_cases hv : target ∈ st.visited
  · rw [if_pos hv]
    exact h
  · rw [if_neg hv]
    dsimp only
    cases LP.alGet macros target with
    | some md =>
        exact alGet_alSetD_keep _ _ _ _ _ h
    | none =>
        cases LP.findSubroutine cfg target with
        | some ls => exact alGet_alSetD_keep _ _ _ _ _ h
        | none =>
            cases LP.findCsectBlock cfg target with
            | some ls => exact alGet_alSetD_keep _ _ _ _ _ h
            | none =>
                cases LP.findCopybookFile cfg target with
                | some ls => exact alGet_alSetD_keep _ _ _ _ _ h
                | none => exact alGet_alSetD_keep _ _ _ _ _ h

lemma targets_fold_flow (cfg : LP.FS) (macros : List (String × LP.MacroDef))
    (mname q : String) (cur : List String) :
    ∀ (ts : List String) (s : LP.LPState), LP.alGet s.flow q = some cur →
      mname ≠ q →
      LP.alGet ((ts.foldl (fun s t => LP.resolveTarget cfg macros
        { s with flow := LP.flowAppendNew s.flow mname t } t) s).flow) q = some cur := by
  intro ts
  induction ts with
  | nil => intro s hs _; exact hs
  | cons t ts ih =>
      intro s hs hne
      simp only [List.foldl_cons]
      refine ih _ ?_ hne
      refine resolveTarget_flow_at cfg macros _ t q cur ?_
      rw [show ({ s with flow := LP.flowAppendNew s.flow mname t } : LP.LPState).flow =
        LP.flowAppendNew s.flow mname t from rfl]
      rw [alGet_flowAppendNew_ne _ _ _ _ hne]
      exact hs

lemma stepEvent_flow (cfg : LP.FS) (macros : List (String × LP.MacroDef))
    (parent : String) (st : LP.LPState) (ev : LP.CallEvent) (cur : List String)
    (h : LP.alGet st.flow parent = some cur)
    (hmn : macroHead ev ≠ some parent) :
    LP.alGet (LP.stepEvent cfg macros parent st ev).flow parent =
      some (if evHead ev ∈ cur then cur else cur ++ [evHead ev]) := by
  cases ev with
  | direct target =>
      unfold LP.stepEvent
      refine resolveTarget_flow_at cfg macros _ target parent _ ?_
      exact alGet_flowAppendNew_self st.flow parent target cur h
  | macroEv mname ts =>
      have hne : mname ≠ parent := by
        intro he
        exact hmn (by rw [macroHead, he])
      unfold LP.stepEvent
      dsimp only
      have h1 : LP.alGet (LP.alSetD (LP.flowAppendNew st.flow parent mname) mname [])
          parent = some (if mname ∈ cur then cur else cur ++ [mname]) := by
        exact alGet_alSetD_keep _ _ _ _ _
          (alGet_flowAppendNew_self st.flow parent mname cur h)
      by_cases hvm : mname ∈ st.visited
      · rw [if_pos hvm]
        exact targets_fold_flow cfg macros mname parent _ ts _ h1 hne
      · rw [if_neg hvm]
        exact targets_fold_flow cfg macros mname parent _ ts _ h1 hne

lemma events_fold_flow (cfg : LP.FS) (macros : List (String × LP.MacroDef))
    (parent : String) :
    ∀ (evs : List LP.CallEvent) (s : LP.LPState) (cur : List String),
      LP.alGet s.flow parent = some cur →
      (∀ ev ∈ evs, macroHead ev ≠ some parent) →
      LP.alGet ((evs.foldl (LP.stepEvent cfg macros parent) s).flow) parent =
        some (addNew cur (evs.map evHead)) := by
  intro evs
  induction evs with
  | nil => intro s cur hs _; exact hs
  | cons ev t ih =>
      intro s cur hs hmn
      simp only [List.foldl_cons, List.map_cons]
      rw [addNew]
      refine ih _ _ ?_ (fun e he => hmn e (List.mem_cons_of_mem _ he))
      exact stepEvent_flow cfg macros parent s ev cur hs (hmn ev (by simp))

/-- C3: call events are emitted in source-line order (the events of a
block's first lines form a prefix of the whole block's events); over the
event fold of `run`, the parent's flow list accumulates the event names
(direct target or macro name) in that order, keeping the first occurrence
of each; in `to_nested_flow`, every child's `seq` equals its 1-indexed
position in its parent's calls list; and concretely, blocks mixing
GO / L-of-V-constant / COPY / CALL / LOAD EP= forms and a macro call on
lines L1 < ... < Ln produce `flow[block]` in exactly source order with
`seq` 1..n. -/
theorem claim_C3 :
    (∀ (macros : List (String × LP.MacroDef)) (parent : String)
        (lines more : List String), ∃ d,
        LP.findCallsOrdered (lines ++ more) macros parent =
          LP.findCallsOrdered lines macros parent ++ d) ∧
    (∀ (cfg : LP.FS) (macros : List (String × LP.MacroDef)) (parent : String)
        (evs : List LP.CallEvent) (s : LP.LPState),
        LP.alGet s.flow parent = some [] →
        (∀ ev ∈ evs, macroHead ev ≠ some parent) →
        LP.alGet ((evs.foldl (LP.stepEvent cfg macros parent) s).flow) parent =
          some (LP.dedupFirst (evs.map evHead))) ∧
    (∀ (fuel : Nat) (st : LP.LPState) (exp : List String) (name : String),
      SeqOK (LP.buildNode st fuel exp name).1) ∧
    LP.findCallsOrdered (LP.extractRange c3bCfg.driver.lines 1 6)
        (LP.discoverMacros c3bCfg) "main" =
      [LP.CallEvent.direct "SUBA", LP.CallEvent.direct "SUBB",
       LP.CallEvent.direct "CPYA", LP.CallEvent.direct "SUBC",
       LP.CallEvent.direct "SUBD", LP.CallEvent.macroEv "CHECK" ["HANDLER"]] ∧
    LP.alGet (LP.run c3bCfg 1 6 30).flow "main" =
      some ["SUBA", "SUBB", "CPYA", "SUBC", "SUBD", "CHECK"] ∧
    ((LP.nestedTree (LP.run c3bCfg 1 6 30) 10).callsOf.map LP.NFNode.seqField) =
      [some 1, some 2, some 3, some 4, some 5, some 6] ∧
    LP.alGet (LP.run c3Cfg 1 3 20).flow "main" = some ["SUBA", "CHECK", "SUBC"] ∧
    ((LP.nestedTree (LP.run c3Cfg 1 3 20) 10).callsOf.map LP.NFNode.seqField) =
      [some 1, some 2, some 3] := by
  refine ⟨findCallsOrdered_lineOrder, ?_, buildNode_seqOK,
    by decide, by decide, by decide, by decide, by decide⟩
  intro cfg macros parent evs s hs hmn
  rw [events_fold_flow cfg macros parent evs s [] hs hmn]
  rw [addNew_nil_dedup]

/-- Witness for C3's conditional conjunct, at the mixed-form block of
`c3bCfg`: the initial state maps `main` to an empty flow list, no event
is a macro event named `main`, and the event fold leaves `flow[main]`
equal to the deduplicated event names in emission order. -/
theorem claim_C3_witness :
    LP.alGet (LP.initState (LP.discoverMacros c3bCfg) []
        (LP.extractRange c3bCfg.driver.lines 1 6)).flow "main" = some [] ∧
    (∀ ev ∈ LP.findCallsOrdered (LP.extractRange c3bCfg.driver.lines 1 6)
        (LP.discoverMacros c3bCfg) "main", macroHead ev ≠ some "main") ∧
    LP.alGet (((LP.findCallsOrdered (LP.extractRange c3bCfg.driver.lines 1 6)
          (LP.discoverMacros c3bCfg) "main").foldl
        (LP.stepEvent c3bCfg (LP.discoverMacros c3bCfg) "main")
        (LP.initState (LP.discoverMacros c3bCfg) []
          (LP.extractRange c3bCfg.driver.lines 1 6))).flow) "main" =
      some (LP.dedupFirst ((LP.findCallsOrdered (LP.extractRange c3bCfg.driver.lines 1 6)
        (LP.discoverMacros c3bCfg) "main").map evHead)) :=
  ⟨by decide, by decide,
   claim_C3.2.1 c3bCfg (LP.discoverMacros c3bCfg) "main" _ _ (by decide) (by decide)⟩

lemma alHas_alSet {α : Type} (m : List (String × α)) (k n : String) (v : α) :
    LP.alHas (LP.alSet m k v) n = true ↔ (LP.alHas m n = true ∨ n = k) := by
  induction m with
  | nil =>
      by_cases hk : k = n
      · subst hk
        simp [LP.alSet, LP.alHas, LP.alGet]
      · simp [LP.alSet, LP.alHas, LP.alGet, hk]
        intro h
        exact absurd h.symm hk
  | cons p t ih =>
      by_cases hp : p.1 = k
      · subst hp
        simp only [LP.alSet, if_pos rfl]
        by_cases hn : p.1 = n
        · subst hn
          simp [LP.alHas, LP.alGet]
        · simp [LP.alHas, LP.alGet, hn]
          intro h
          exact absurd h.symm hn
      · simp only [LP.alSet, if_neg hp]
        by_cases hn : p.1 = n
        · subst hn
          simp [LP.alHas, LP.alGet]
        · simp only [LP.alHas, LP.alGet, hn, if_false] at *
          exact ih

lemma mem_fst_alSet {α : Type} {m : List (String × α)} {k n : String} {v : α}
    (h : n ∈ (LP.alSet m k v).map Prod.fst) : n ∈ m.map Prod.fst ∨ n = k := by
  induction m with
  | nil => simp [LP.alSet] at h; right; exact h
  | cons p t ih =>
      by_cases hp : p.1 = k
      · rw [LP.alSet, if_pos hp] at h
        simp only [List.map_cons, List.mem_cons] at h ⊢
        rcases h with h | h
        · right; exact h
        · left; right; exact h
      · rw [LP.alSet, if_neg hp] at h
        simp only [List.map_cons, List.mem_cons] at h ⊢
        rcases h with h | h
        · left; left; exact h
        · rcases ih h with h | h
          · left; right; exact h
          · right; exact h

lemma mem_snd_alSet {β : Type} {m : List (String × List β)} {k : String}
    {v : List β} {x : β}
    (h : x ∈ (LP.alSet m k v).flatMap Prod.snd) : x ∈ m.flatMap Prod.snd ∨ x ∈ v := by
  induction m with
  | nil => simp [LP.alSet] at h; right; exact h
  | cons p t ih =>
      by_cases hp : p.1 = k
      · rw [LP.alSet, if_pos hp] at h
        simp only [List.flatMap_cons, List.mem_append] at h ⊢
        rcases h with h | h
        · right; exact h
        · left; right; exact h
      · rw [LP.alSet, if_neg hp] at h
        simp only [List.flatMap_cons, List.mem_append] at h ⊢
        rcases h with h | h
        · left; left; exact h
        · rcases ih h with h | h
          · left; right; exact h
          · right; exact h

lemma alGet_values_sub {β : Type} {m : List (String × List β)} {p : String}
    {ls : List β} (h : LP.alGet m p = some ls) {x : β} (hx : x ∈ ls) :
    x ∈ m.flatMap Prod.snd := by
  induction m with
  | nil => simp [LP.alGet] at h
  | cons q t ih =>
      rw [LP.alGet] at h
      by_cases hq : q.1 = p
      · rw [if_pos hq] at h
        simp only [List.flatMap_cons, List.mem_append]
        left
        rw [Option.some_inj] at h
        rw [h]
        exact hx
      · rw [if_neg hq] at h
        simp only [List.flatMap_cons, List.mem_append]
        right
        exact ih h

lemma mem_names_flowAppendNew {flow : List (String × List String)} {p c n : String}
    (h : n ∈ (LP.flowAppendNew flow p c).map Prod.fst ++
          (LP.flowAppendNew flow p c).flatMap Prod.snd) :
    n ∈ flow.map Prod.fst ++ flow.flatMap Prod.snd ∨ n = p ∨ n = c := by
  unfold LP.flowAppendNew at h
  by_cases hmem : c ∈ (LP.alGet flow p).getD []
  · rw [if_pos hmem] at h
    left; exact h
  · rw [if_neg hmem] at h
    rcases List.mem_append.mp h with h | h
    · rcases mem_fst_alSet h with h | h
      · left; exact List.mem_append.mpr (Or.inl h)
      · right; left; exact h
    · rcases mem_snd_alSet h with h | h
      · left; exact List.mem_append.mpr (Or.inr h)
      · rcases List.mem_append.mp h with h | h
        · cases hg : LP.alGet flow p with
          | none => rw [hg] at h; simp at h
          | some ls =>
              rw [hg] at h
              left
              exact List.mem_append.mpr (Or.inr (alGet_values_sub hg h))
        · right; right; simpa using h

lemma mem_names_alSetD {flow : List (String × List String)} {k n : String}
    (h : n ∈ (LP.alSetD flow k []).map Prod.fst ++ (LP.alSetD flow k []).flatMap Prod.snd) :
    n ∈ flow.map Prod.fst ++ flow.flatMap Prod.snd ∨ n = k := by
  unfold LP.alSetD at h
  by_cases hk : LP.alHas flow k
  · rw [if_pos hk] at h; left; exact h
  · rw [if_neg hk] at h
    rcases List.mem_append.mp h with h | h
    · rw [List.map_append] at h
      rcases List.mem_append.mp h with h | h
      · left; exact List.mem_append.mpr (Or.inl h)
      · right; simpa using h
    · rw [List.flatMap_append] at h
      rcases List.mem_append.mp h with h | h
      · left; exact List.mem_append.mpr (Or.inr h)
      · simp at h

lemma alSet_keys_nodup {α : Type} {m : List (String × α)} {k : String} {v : α}
    (h : (m.map Prod.fst).Nodup) : ((LP.alSet m k v).map Prod.fst).Nodup := by
  induction m with
  | nil => simp [LP.alSet]
  | cons p t ih =>
      by_cases hp : p.1 = k
      · rw [LP.alSet, if_pos hp]
        simp only [List.map_cons, List.nodup_cons] at h ⊢
        rw [← hp]
        exact h
      · rw [LP.alSet, if_neg hp]
        simp only [List.map_cons, List.nodup_cons] at h ⊢
        refine ⟨?_, ih h.2⟩
        intro hmem
        rcases mem_fst_alSet hmem with hmem | hmem
        · exact h.1 hmem
        · exact hp hmem

lemma EngInv.at {macros : List (String × LP.MacroDef)} {st : LP.LPState}
    (h : EngInv macros st) (t : String) : EngInvAt macros st t :=
  ⟨h.vis_xor, h.macros_chunk, h.missing_vis, h.chunks_vis,
   fun n hn => Or.inl (h.flow_vis n hn), h.queue_vis, h.chunks_nodup⟩

lemma EngInvAt.toEngInv {macros : List (String × LP.MacroDef)} {st : LP.LPState}
    {t : String} (h : EngInvAt macros st t) (ht : t ∈ st.visited) : EngInv macros st :=
  ⟨h.vis_xor, h.macros_chunk, h.missing_vis, h.chunks_vis,
   fun n hn => (h.flow_vis n hn).elim id (fun he => he ▸ ht), h.queue_vis,
   h.chunks_nodup⟩

lemma resolve_chunk_case (macros : List (String × LP.MacroDef)) (st : LP.LPState)
    (target : String) (ls : List String)
    (tags : List (String × List String)) (kinds : List (String × String))
    (mns : List String)
    (hvis : target ∉ st.visited) (h : EngInvAt macros st target) :
    EngInv macros
      { chunks := LP.alSet st.chunks target ls,
        flow := LP.alSetD st.flow target [],
        missing := st.missing,
        visited := st.visited ++ [target],
        queue := st.queue ++ [(target, ls)],
        nodeTags := tags, chunkKinds := kinds,
        macroNodes := mns, equAliases := st.equAliases } := by
  constructor
  · intro n hn
    simp only [List.mem_append, List.mem_singleton] at hn
    rcases hn with hn | hn
    · rcases h.vis_xor n hn with ⟨h1, h2⟩ | ⟨h1, h2⟩
      · left
        exact ⟨(alHas_alSet _ _ _ _).mpr (Or.inl h1), h2⟩
      · right
        refine ⟨?_, h2⟩
        rcases Bool.eq_false_or_eq_true (LP.alHas (LP.alSet st.chunks target ls) n) with hb | hb
        · rcases (alHas_alSet _ _ _ _).mp hb with hc | hc
          · rw [h1] at hc; exact absurd hc (by simp)
          · subst hc; exact absurd (h.missing_vis n h2) hvis
        · exact hb
    · subst hn
      left
      constructor
      · exact (alHas_alSet _ _ _ _).mpr (Or.inr rfl)
      · intro hm
        exact hvis (h.missing_vis _ hm)
  · intro n hn
    exact (alHas_alSet _ _ _ _).mpr (Or.inl (h.macros_chunk n hn))
  · intro n hn
    exact List.mem_append.mpr (Or.inl (h.missing_vis n hn))
  · intro n hn
    rcases (alHas_alSet _ _ _ _).mp hn with hc | hc
    · rcases h.chunks_vis n hc with hv | hv
      · left; exact List.mem_append.mpr (Or.inl hv)
      · right; exact hv
    · subst hc; left; exact List.mem_append.mpr (Or.inr (by simp))
  · intro n hn
    rcases mem_names_alSetD hn with hn | hn
    · rcases h.flow_vis n hn with hv2 | hv2
      · exact List.mem_append.mpr (Or.inl hv2)
      · subst hv2; exact List.mem_append.mpr (Or.inr (by simp))
    · subst hn; exact List.mem_append.mpr (Or.inr (by simp))
  · intro p hp
    rcases List.mem_append.mp hp with hp | hp
    · exact List.mem_append.mpr (Or.inl (h.queue_vis p hp))
    · simp only [List.mem_singleton] at hp
      subst hp
      exact List.mem_append.mpr (Or.inr (by simp))
  · exact alSet_keys_nodup h.chunks_nodup

lemma resolve_missing_case (macros : List (String × LP.MacroDef)) (st : LP.LPState)
    (target : String)
    (tags : List (String × List String)) (kinds : List (String × String))
    (mns : List String)
    (hvis : target ∉ st.visited) (hmac : LP.alHas macros target = false)
    (h : EngInvAt macros st target) :
    EngInv macros
      { chunks := st.chunks,
        flow := LP.alSetD st.flow target [],
        missing := st.missing ++ [target],
        visited := st.visited ++ [target],
        queue := st.queue,
        nodeTags := tags, chunkKinds := kinds,
        macroNodes := mns, equAliases := st.equAliases } := by
  have hchunks : LP.alHas st.chunks target = false := by
    rcases Bool.eq_false_or_eq_true (LP.alHas st.chunks target) with hb | hb
    · rcases h.chunks_vis target hb with hv | hv
      · exact absurd hv hvis
      · rw [hmac] at hv; exact absurd hv (by simp)
    · exact hb
  constructor
  · intro n hn
    simp only [List.mem_append, List.mem_singleton] at hn
    rcases hn with hn | hn
    · have hne : n ≠ target := fun he => hvis (he ▸ hn)
      rcases h.vis_xor n hn with ⟨h1, h2⟩ | ⟨h1, h2⟩
      · left
        refine ⟨h1, ?_⟩
        intro hm
        rcases List.mem_append.mp hm with hm | hm
        · exact h2 hm
        · simp only [List.mem_singleton] at hm; exact hne hm
      · right
        exact ⟨h1, List.mem_append.mpr (Or.inl h2)⟩
    · subst hn
      right
      exact ⟨hchunks, List.mem_append.mpr (Or.inr (by simp))⟩
  · intro n hn
    exact h.macros_chunk n hn
  · intro n hn
    rcases List.mem_append.mp hn with hn | hn
    · exact List.mem_append.mpr (Or.inl (h.missing_vis n hn))
    · simp only [List.mem_singleton] at hn
      subst hn
      exact List.mem_append.mpr (Or.inr (by simp))
  · intro n hn
    rcases h.chunks_vis n hn with hv | hv
    · left; exact List.mem_append.mpr (Or.inl hv)
    · right; exact hv
  · intro n hn
    rcases mem_names_alSetD hn with hn | hn
    · rcases h.flow_vis n hn with hv2 | hv2
      · exact List.mem_append.mpr (Or.inl hv2)
      · subst hv2; exact List.mem_append.mpr (Or.inr (by simp))
    · subst hn; exact List.mem_append.mpr (Or.inr (by simp))
  · intro p hp
    exact List.mem_append.mpr (Or.inl (h.queue_vis p hp))
  · exact h.chunks_nodup

lemma resolveTarget_inv (cfg : LP.FS) (macros : List (String × LP.MacroDef))
    (st : LP.LPState) (target : String) (h : EngInvAt macros st target) :
    EngInv macros (LP.resolveTarget cfg macros st target) ∧
    target ∈ (LP.resolveTarget cfg macros st target).visited ∧
    (∀ n ∈ st.visited, n ∈ (LP.resolveTarget cfg macros st target).visited) := by
  unfold LP.resolveTarget
  by_cases hv : target ∈ st.visited
  · rw [if_pos hv]
    exact ⟨h.toEngInv hv, hv, fun n hn => hn⟩
  · rw [if_neg hv]
    dsimp only
    cases hm : LP.alGet macros target with
    | some md =>
        dsimp only
        refine ⟨resolve_chunk_case macros st target md.lines _ _ _ hv h, ?_, ?_⟩
        · exact List.mem_append.mpr (Or.inr (by simp))
        · intro n hn; exact List.mem_append.mpr (Or.inl hn)
    | none =>
        cases hs : LP.findSubroutine cfg target with
        | some ls =>
            dsimp only
            refine ⟨resolve_chunk_case macros st target ls _ _ _ hv h, ?_, ?_⟩
            · exact List.mem_append.mpr (Or.inr (by simp))
            · intro n hn; exact List.mem_append.mpr (Or.inl hn)
        | none =>
            cases hc : LP.findCsectBlock cfg target with
            | some ls =>
                dsimp only
                refine ⟨resolve_chunk_case macros st target ls _ _ _ hv h, ?_, ?_⟩
                · exact List.mem_append.mpr (Or.inr (by simp))
                · intro n hn; exact List.mem_append.mpr (Or.inl hn)
            | none =>
                cases hcb : LP.findCopybookFile cfg target with
                | some ls =>
                    dsimp only
                    refine ⟨resolve_chunk_case macros st target ls _ _ _ hv h, ?_, ?_⟩
                    · exact List.mem_append.mpr (Or.inr (by simp))
                    · intro n hn; exact List.mem_append.mpr (Or.inl hn)
                | none =>
                    dsimp only
                    refine ⟨resolve_missing_case macros st target _ _ _ hv
                        (by unfold LP.alHas; rw [hm]; rfl) h, ?_, ?_⟩
                    · exact List.mem_append.mpr (Or.inr (by simp))
                    · intro n hn; exact List.mem_append.mpr (Or.inl hn)

lemma emitDirect_mv {macros : List (String × LP.MacroDef)} {st : LP.ScanSt} {n : String}
    (h : MacrosValid macros st) : MacrosValid macros (LP.emitDirect st n) := by
  intro mn ts hm
  unfold LP.emitDirect at hm
  dsimp only at hm
  split at hm
  · exact h mn ts hm
  · simp only [List.mem_append, List.mem_singleton] at hm
    rcases hm with hm | hm
    · exact h mn ts hm
    · exact absurd hm (by simp)

lemma foldl_emit_mv {α : Type} {macros : List (String × LP.MacroDef)}
    (f : LP.ScanSt → α → LP.ScanSt)
    (hf : ∀ s a, MacrosValid macros s → MacrosValid macros (f s a)) :
    ∀ (l : List α) (s : LP.ScanSt), MacrosValid macros s → MacrosValid macros (l.foldl f s) := by
  intro l
  induction l with
  | nil => intro s hs; exact hs
  | cons a t ih => intro s hs; exact ih _ (hf s a hs)

lemma scanStmt_mv {macros : List (String × LP.MacroDef)} {parent : String}
    {st : LP.ScanSt} {line : String}
    (h : MacrosValid macros st) : MacrosValid macros (LP.scanStmt macros parent st line) := by
  unfold LP.scanStmt
  rcases hss : LP.splitStatement line with ⟨lab, op, opf⟩
  dsimp only
  split
  · exact h
  · split
    · exact h
    · split
      · next hcond =>
        split
        · exact h
        · intro mn ts hm
          simp only [List.mem_append, List.mem_singleton] at hm
          rcases hm with hm | hm
          · exact h mn ts hm
          · have := (Bool.and_eq_true _ _).mp hcond
            rw [LP.CallEvent.macroEv.injEq] at hm
            rw [hm.1]
            exact this.1
      · split
        · split
          · exact emitDirect_mv h
          · exact h
        · split
          · refine foldl_emit_mv _ ?_ _ _ h
            intro s a hs
            dsimp only
            split
            · split
              · exact emitDirect_mv hs
              · exact hs
            · exact hs
          · split
            · split
              · exact emitDirect_mv h
              · exact h
            · -- dispatch fold then EQU branch
              have hd : MacrosValid macros
                  ((LP.targetsFromDispatch (LP.splitOperands opf)).foldl LP.emitDirect st) :=
                foldl_emit_mv _ (fun s a hs => emitDirect_mv hs) _ _ h
              split
              · split
                · exact emitDirect_mv hd
                · exact hd
              · exact hd

lemma scanLine_mv {macros : List (String × LP.MacroDef)} {parent : String}
    {st : LP.ScanSt} {line : String}
    (h : MacrosValid macros st) : MacrosValid macros (LP.scanLine macros parent st line) := by
  unfold LP.scanLine
  split
  · exact h
  · split
    · exact emitDirect_mv h
    · split
      · exact emitDirect_mv h
      · split
        · split
          · exact scanStmt_mv h
          · exact emitDirect_mv h
        · exact scanStmt_mv h

lemma findCallsOrdered_mv (lines : List String) (macros : List (String × LP.MacroDef))
    (parent : String) :
    ∀ mn ts, LP.CallEvent.macroEv mn ts ∈ LP.findCallsOrdered lines macros parent →
      LP.alHas macros mn = true := by
  have : MacrosValid macros
      (lines.foldl (LP.scanLine macros parent) { seenD := [], seenMK := [], res := [] }) := by
    refine foldl_emit_mv _ ?_ _ _ ?_
    · intro s a hs; exact scanLine_mv hs
    · intro mn ts hm; simp at hm
  exact this

lemma flowAppendNew_invAt {macros : List (String × LP.MacroDef)} {st : LP.LPState}
    {parent c : String} (h : EngInv macros st) (hpar : parent ∈ st.visited) :
    EngInvAt macros { st with flow := LP.flowAppendNew st.flow parent c } c := by
  refine ⟨h.vis_xor, h.macros_chunk, h.missing_vis, h.chunks_vis, ?_, h.queue_vis,
    h.chunks_nodup⟩
  intro n hn
  rcases mem_names_flowAppendNew hn with hn | hn | hn
  · exact Or.inl (h.flow_vis n hn)
  · subst hn; exact Or.inl hpar
  · subst hn; exact Or.inr rfl

lemma targets_fold_inv (cfg : LP.FS) (macros : List (String × LP.MacroDef))
    (mname : String) :
    ∀ (targets : List String) (s : LP.LPState), EngInv macros s → mname ∈ s.visited →
    EngInv macros (targets.foldl
      (fun s t => LP.resolveTarget cfg macros
        { s with flow := LP.flowAppendNew s.flow mname t } t) s) ∧
    (∀ n ∈ s.visited, n ∈ (targets.foldl
      (fun s t => LP.resolveTarget cfg macros
        { s with flow := LP.flowAppendNew s.flow mname t } t) s).visited) := by
  intro targets
  induction targets with
  | nil => intro s hs hm; exact ⟨hs, fun n hn => hn⟩
  | cons t ts ih =>
      intro s hs hm
      simp only [List.foldl_cons]
      have h1 := flowAppendNew_invAt (c := t) hs hm
      have h2 := resolveTarget_inv cfg macros _ t h1
      have hmono : ∀ n ∈ s.visited, n ∈ (LP.resolveTarget cfg macros
          { s with flow := LP.flowAppendNew s.flow mname t } t).visited := h2.2.2
      have h3 := ih _ h2.1 (hmono mname hm)
      exact ⟨h3.1, fun n hn => h3.2 n (hmono n hn)⟩

lemma stepEvent_inv (cfg : LP.FS) (macros : List (String × LP.MacroDef))
    (parent : String) (st : LP.LPState) (ev : LP.CallEvent)
    (h : EngInv macros st) (hpar : parent ∈ st.visited)
    (hev : ∀ mn ts, ev = LP.CallEvent.macroEv mn ts → LP.alHas macros mn = true) :
    EngInv macros (LP.stepEvent cfg macros parent st ev) ∧
    (∀ n ∈ st.visited, n ∈ (LP.stepEvent cfg macros parent st ev).visited) := by
  cases ev with
  | direct target =>
      unfold LP.stepEvent
      have h1 := flowAppendNew_invAt (c := target) h hpar
      have h2 := resolveTarget_inv cfg macros _ target h1
      exact ⟨h2.1, h2.2.2⟩
  | macroEv mname ts =>
      unfold LP.stepEvent
      dsimp only
      have hmac : LP.alHas macros mname = true := hev mname ts rfl
      have h1 : EngInvAt macros
          { st with flow := LP.alSetD (LP.flowAppendNew st.flow parent mname) mname [] }
          mname := by
        have h0 := flowAppendNew_invAt (c := mname) h hpar
        refine ⟨h0.vis_xor, h0.macros_chunk, h0.missing_vis, h0.chunks_vis, ?_, h0.queue_vis,
          h0.chunks_nodup⟩
        intro n hn
        rcases mem_names_alSetD hn with hn | hn
        · exact h0.flow_vis n hn
        · exact Or.inr hn
      by_cases hvm : mname ∈ st.visited
      · rw [if_pos hvm]
        have h2 : EngInv macros
            { st with flow := LP.alSetD (LP.flowAppendNew st.flow parent mname) mname [],
                      nodeTags := LP.alSet st.nodeTags mname ["macro"],
                      chunkKinds := LP.alSet st.chunkKinds mname "macro" } :=
          ⟨h1.vis_xor, h1.macros_chunk, h1.missing_vis, h1.chunks_vis,
           fun n hn => (h1.flow_vis n hn).elim id (fun he => he ▸ hvm), h1.queue_vis,
           h1.chunks_nodup⟩
        have h3 := targets_fold_inv cfg macros mname ts _ h2 hvm
        exact h3
      · rw [if_neg hvm]
        have h2 : EngInv macros
            { st with flow := LP.alSetD (LP.flowAppendNew st.flow parent mname) mname [],
                      nodeTags := LP.alSet st.nodeTags mname ["macro"],
                      chunkKinds := LP.alSet st.chunkKinds mname "macro",
                      visited := st.visited ++ [mname],
                      queue := st.queue ++
                        [(mname, ((LP.alGet macros mname).getD default).lines)] } := by
        
          refine ⟨?_, h1.macros_chunk, ?_, ?_, ?_, ?_, h1.chunks_nodup⟩
          · intro n hn
            rcases List.mem_append.mp hn with hn | hn
            · exact h1.vis_xor n hn
            · simp only [List.mem_singleton] at hn
              subst hn
              left
              exact ⟨h1.macros_chunk n hmac, fun hm => hvm (h1.missing_vis n hm)⟩
          · intro n hn
            exact List.mem_append.mpr (Or.inl (h1.missing_vis n hn))
          · intro n hn
            rcases h1.chunks_vis n hn with hv | hv
            · exact Or.inl (List.mem_append.mpr (Or.inl hv))
            · exact Or.inr hv
          · intro n hn
            rcases h1.flow_vis n hn with hv | hv
            · exact List.mem_append.mpr (Or.inl hv)
            · subst hv; exact List.mem_append.mpr (Or.inr (by simp))
          · intro p hp
            rcases List.mem_append.mp hp with hp | hp
            · exact List.mem_append.mpr (Or.inl (h1.queue_vis p hp))
            · simp only [List.mem_singleton] at hp
              subst hp
              exact List.mem_append.mpr (Or.inr (by simp))
        have hm2 : mname ∈ (st.visited ++ [mname]) := List.mem_append.mpr (Or.inr (by simp))
        have h3 := targets_fold_inv cfg macros mname ts _ h2 hm2
        exact ⟨h3.1, fun n hn => h3.2 n (List.mem_append.mpr (Or.inl hn))⟩

lemma events_fold_inv (cfg : LP.FS) (macros : List (String × LP.MacroDef))
    (parent : String) :
    ∀ (evs : List LP.CallEvent) (s : LP.LPState), EngInv macros s → parent ∈ s.visited →
    (∀ ev ∈ evs, ∀ mn ts, ev = LP.CallEvent.macroEv mn ts → LP.alHas macros mn = true) →
    EngInv macros (evs.foldl (LP.stepEvent cfg macros parent) s) ∧
    (∀ n ∈ s.visited, n ∈ (evs.foldl (LP.stepEvent cfg macros parent) s).visited) := by
  intro evs
  induction evs with
  | nil => intro s hs _ _; exact ⟨hs, fun n hn => hn⟩
  | cons ev t ih =>
      intro s hs hp hv
      simp only [List.foldl_cons]
      have h1 := stepEvent_inv cfg macros parent s ev hs hp
        (fun mn ts he => hv ev (by simp) mn ts he)
      have h2 := ih _ h1.1 (h1.2 parent hp) (fun e he mn ts heq => hv e (by simp [he]) mn ts heq)
      exact ⟨h2.1, fun n hn => h2.2 n (h1.2 n hn)⟩

lemma runLoop_inv (cfg : LP.FS) (macros : List (String × LP.MacroDef)) :
    ∀ (fuel : Nat) (st : LP.LPState), EngInv macros st →
    EngInv macros (LP.runLoop cfg macros fuel st) := by
  intro fuel
  induction fuel with
  | zero => intro st h; exact h
  | succ fuel ih =>
      intro st h
      unfold LP.runLoop
      cases hq : st.queue with
      | nil => exact h
      | cons front rest =>
          rcases front with ⟨parent, lines⟩
          dsimp only
          apply ih
          have hrest : EngInv macros { st with queue := rest } := by
            refine ⟨h.vis_xor, h.macros_chunk, h.missing_vis, h.chunks_vis, h.flow_vis, ?_,
              h.chunks_nodup⟩
            intro p hp
            exact h.queue_vis p (by rw [hq]; exact List.mem_cons_of_mem _ hp)
          have hpar : parent ∈ st.visited :=
            h.queue_vis (parent, lines) (by rw [hq]; simp)
          exact (events_fold_inv cfg macros parent _ _ hrest hpar
            (fun ev he mn ts heq => by
              subst heq
              exact findCallsOrdered_mv lines macros parent mn ts he)).1

lemma alHas_of_key_mem {α : Type} {m : List (String × α)} {n : String}
    (h : n ∈ m.map Prod.fst) : LP.alHas m n = true := by
  induction m with
  | nil => simp at h
  | cons p t ih =>
      simp only [List.map_cons, List.mem_cons] at h
      by_cases hp : p.1 = n
      · simp [LP.alHas, LP.alGet, hp]
      · rcases h with h | h
        · exact absurd h.symm hp
        · simpa [LP.alHas, LP.alGet, hp] using ih h

lemma key_mem_of_alHas {α : Type} {m : List (String × α)} {n : String}
    (h : LP.alHas m n = true) : n ∈ m.map Prod.fst := by
  induction m with
  | nil => simp [LP.alHas, LP.alGet] at h
  | cons p t ih =>
      by_cases hp : p.1 = n
      · simp [hp]
      · simp only [LP.alHas, LP.alGet, hp, if_false] at h
        simp only [List.map_cons, List.mem_cons]
        right
        exact ih h

lemma initState_chunks (macros : List (String × LP.MacroDef))
    (st0 : LP.LPState) :
    (macros.foldl (fun st nm =>
      { st with chunkKinds := LP.alSet st.chunkKinds nm.1 "macro",
                chunks := LP.alSet st.chunks nm.1 nm.2.lines }) st0).chunks =
    macros.foldl (fun c nm => LP.alSet c nm.1 nm.2.lines) st0.chunks := by
  induction macros generalizing st0 with
  | nil => rfl
  | cons nm t ih => simp only [List.foldl_cons]; rw [ih]

lemma chunks_fold_has (macros : List (String × LP.MacroDef)) (n : String) :
    ∀ (acc : List (String × List String)),
    LP.alHas (macros.foldl (fun c nm => LP.alSet c nm.1 nm.2.lines) acc) n = true ↔
      (LP.alHas acc n = true ∨ n ∈ macros.map Prod.fst) := by
  induction macros with
  | nil => intro acc; simp
  | cons nm t ih =>
      intro acc
      simp only [List.foldl_cons, List.map_cons, List.mem_cons]
      rw [ih]
      rw [alHas_alSet]
      constructor
      · rintro (⟨h | h⟩ | h)
        · exact Or.inl h
        · exact Or.inr (Or.inl h)
        · exact Or.inr (Or.inr h)
      · rintro (h | h | h)
        · exact Or.inl (Or.inl h)
        · exact Or.inl (Or.inr h)
        · exact Or.inr h

lemma initState_fold_fields (macros : List (String × LP.MacroDef))
    (st0 : LP.LPState) :
    (macros.foldl (fun st nm =>
      { st with chunkKinds := LP.alSet st.chunkKinds nm.1 "macro",
                chunks := LP.alSet st.chunks nm.1 nm.2.lines }) st0).missing = st0.missing ∧
    (macros.foldl (fun st nm =>
      { st with chunkKinds := LP.alSet st.chunkKinds nm.1 "macro",
                chunks := LP.alSet st.chunks nm.1 nm.2.lines }) st0).flow = st0.flow ∧
    (macros.foldl (fun st nm =>
      { st with chunkKinds := LP.alSet st.chunkKinds nm.1 "macro",
                chunks := LP.alSet st.chunks nm.1 nm.2.lines }) st0).visited = st0.visited ∧
    (macros.foldl (fun st nm =>
      { st with chunkKinds := LP.alSet st.chunkKinds nm.1 "macro",
                chunks := LP.alSet st.chunks nm.1 nm.2.lines }) st0).queue = st0.queue := by
  induction macros generalizing st0 with
  | nil => exact ⟨rfl, rfl, rfl, rfl⟩
  | cons nm t ih => simp only [List.foldl_cons]; exact ih _

lemma chunks_fold_nodup (macros : List (String × LP.MacroDef)) :
    ∀ (acc : List (String × List String)), (acc.map Prod.fst).Nodup →
    (((macros.foldl (fun c nm => LP.alSet c nm.1 nm.2.lines) acc).map Prod.fst)).Nodup := by
  induction macros with
  | nil => intro acc h; exact h
  | cons nm t ih =>
      intro acc h
      simp only [List.foldl_cons]
      exact ih _ (alSet_keys_nodup h)

lemma initState_inv (macros : List (String × LP.MacroDef))
    (aliases : List (String × String)) (mainLines : List String) :
    EngInv macros (LP.initState macros aliases mainLines) := by
  unfold LP.initState
  dsimp only
  rw [initState_chunks]
  rcases initState_fold_fields macros
      { chunks := [], flow := [], missing := [], visited := [], queue := [],
        nodeTags := [("main", ["entry"])], chunkKinds := [("main", "sub")],
        macroNodes := macros.map (fun nm => nm.1), equAliases := aliases } with
    ⟨hm, hf, hv, hque⟩
  rw [hm]
  dsimp only
  constructor
  · intro n hn
    simp only [List.mem_singleton] at hn
    subst hn
    left
    constructor
    · exact (alHas_alSet _ _ _ _).mpr (Or.inr rfl)
    · simp
  · intro n hn
    apply (alHas_alSet _ _ _ _).mpr
    left
    exact (chunks_fold_has macros n []).mpr (Or.inr (key_mem_of_alHas hn))
  · intro n hn; simp at hn
  · intro n hn
    rcases (alHas_alSet _ _ _ _).mp hn with hc | hc
    · rcases (chunks_fold_has macros n []).mp hc with hc2 | hc2
      · simp [LP.alHas, LP.alGet] at hc2
      · exact Or.inr (alHas_of_key_mem hc2)
    · subst hc; left; simp
  · intro n hn
    simp only [List.map_cons, List.map_nil, List.flatMap_cons, List.flatMap_nil] at hn
    simp only [List.append_nil] at hn
    simp at hn
    simp [hn]
  · intro p hp
    simp only [List.mem_singleton] at hp
    subst hp
    simp
  · exact alSet_keys_nodup (chunks_fold_nodup macros [] (by simp))

/-- C1: after `LightParser.run`, every name appearing in the flow map (as
parent key or inside a child list) is in exactly one of the chunk store and
the missing list: resolved names have a chunks entry and are not missing,
unresolved names are missing with no chunks entry. -/
theorem claim_C1 (cfg : LP.FS) (s e fuel : Nat) (n : String)
    (hn : n ∈ LP.flowNames (LP.run cfg s e fuel)) :
    (LP.alHas (LP.run cfg s e fuel).chunks n = true ∧
      n ∉ (LP.run cfg s e fuel).missing) ∨
    (LP.alHas (LP.run cfg s e fuel).chunks n = false ∧
      n ∈ (LP.run cfg s e fuel).missing) := by
  have hinv : EngInv (LP.discoverMacros cfg) (LP.run cfg s e fuel) := by
    unfold LP.run
    exact runLoop_inv cfg _ fuel _ (initState_inv _ _ _)
  exact hinv.vis_xor n (hinv.flow_vis n hn)

theorem claim_C1_witness :
    ("SUBB" ∈ LP.flowNames (LP.run c1Cfg 1 5 20)) ∧
    ((LP.alHas (LP.run c1Cfg 1 5 20).chunks "SUBB" = true ∧
      "SUBB" ∉ (LP.run c1Cfg 1 5 20).missing) ∨
     (LP.alHas (LP.run c1Cfg 1 5 20).chunks "SUBB" = false ∧
      "SUBB" ∈ (LP.run c1Cfg 1 5 20).missing)) :=
  ⟨by decide, claim_C1 c1Cfg 1 5 20 "SUBB" (by decide)⟩

lemma dedupFirst_sub {l : List String} {x : String} (h : x ∈ LP.dedupFirst l) : x ∈ l := by
  have key : ∀ (seen l' : List String), x ∈ LP.dedupFirst.go seen l' → x ∈ l' := by
    intro seen l'
    induction l' generalizing seen with
    | nil => intro h2; simp [LP.dedupFirst.go] at h2
    | cons a t ih =>
        intro h2
        unfold LP.dedupFirst.go at h2
        split at h2
        · exact List.mem_cons_of_mem _ (ih _ h2)
        · rcases List.mem_cons.mp h2 with h2 | h2
          · exact h2 ▸ List.mem_cons_self _ _
          · exact List.mem_cons_of_mem _ (ih _ h2)
  exact key [] l h

lemma alGet_mem_values {α : Type} {m : List (String × α)} {k : String} {v : α}
    (h : LP.alGet m k = some v) : v ∈ m.map Prod.snd := by
  induction m with
  | nil => simp [LP.alGet] at h
  | cons p t ih =>
      rw [LP.alGet] at h
      split at h
      · simp only [Option.some_inj] at h
        subst h
        simp
      · simp only [List.map_cons, List.mem_cons]
        right
        exact ih h

lemma mem_values_alSet {α : Type} {m : List (String × α)} {k : String} {v x : α}
    (h : x ∈ (LP.alSet m k v).map Prod.snd) : x ∈ m.map Prod.snd ∨ x = v := by
  induction m with
  | nil => simp [LP.alSet] at h; right; exact h
  | cons p t ih =>
      rw [LP.alSet] at h
      split at h
      · simp only [List.map_cons, List.mem_cons] at h
        rcases h with h | h
        · right; exact h
        · left; simp [h]
      · simp only [List.map_cons, List.mem_cons] at h ⊢
        rcases h with h | h
        · left; left; exact h
        · rcases ih h with h | h
          · left; right; exact h
          · right; exact h

lemma getD_mem (l : List String) (i : Nat) (d : String) (h : i < l.length) :
    l.getD i d ∈ l := by
  rw [List.getD_eq_getElem l d h]
  exact List.getElem_mem h

lemma targetsFromKnownMacroCall_sub (md : LP.MacroDef) (ops : List String) :
    ∀ t ∈ LP.targetsFromKnownMacroCall md ops,
      t ∈ ops.map (fun o => HP.pyUpper (HP.pyStrip o)) ∨ t ∈ ops.map HP.pyUpper := by
  intro t ht
  unfold LP.targetsFromKnownMacroCall at ht
  dsimp only at ht
  have hvals : ∀ v ∈ (((md.parameters.enum.map (fun pi => (pi.2, pi.1))).foldl
      (fun bp pi =>
        if pi.2 < ops.length then
          LP.alSet bp (HP.pyUpper pi.1) (HP.pyStrip (ops.getD pi.2 ""))
        else bp) []).map Prod.snd),
      v ∈ ops.map HP.pyStrip := by
    have key : ∀ (ps : List (String × Nat)) (acc : List (String × String)),
        (∀ v ∈ acc.map Prod.snd, v ∈ ops.map HP.pyStrip) →
        ∀ v ∈ ((ps.foldl (fun bp pi =>
          if pi.2 < ops.length then
            LP.alSet bp (HP.pyUpper pi.1) (HP.pyStrip (ops.getD pi.2 ""))
          else bp) acc).map Prod.snd), v ∈ ops.map HP.pyStrip := by
      intro ps
      induction ps with
      | nil => intro acc hacc v hv; exact hacc v hv
      | cons pi t ih =>
          intro acc hacc v hv
          simp only [List.foldl_cons] at hv
          refine ih _ ?_ v hv
          intro w hw
          by_cases hlt : pi.2 < ops.length
          · rw [if_pos hlt] at hw
            rcases mem_values_alSet hw with hw | hw
            · exact hacc w hw
            · subst hw
              exact List.mem_map_of_mem _ (getD_mem ops pi.2 "" hlt)
          · rw [if_neg hlt] at hw
            exact hacc w hw
    intro v hv
    exact key _ [] (by intro w hw; simp at hw) v hv
  split at ht
  · -- explicit call-parameter targets
    have ht2 := dedupFirst_sub ht
    rcases List.mem_filterMap.mp ht2 with ⟨param, _, hp⟩
    split at hp
    · next hsym =>
      rw [Option.some_inj] at hp
      subst hp
      cases hget : LP.alGet ((md.parameters.enum.map (fun pi => (pi.2, pi.1))).foldl
          (fun bp pi =>
            if pi.2 < ops.length then
              LP.alSet bp (HP.pyUpper pi.1) (HP.pyStrip (ops.getD pi.2 ""))
            else bp) []) (HP.pyUpper param) with
      | none =>
          rw [hget] at hsym
          simp only [Option.getD_none] at hsym
          exact absurd hsym (by decide)
      | some v =>
          have hv := hvals v (alGet_mem_values hget)
          rcases List.mem_map.mp hv with ⟨o, ho, hveq⟩
          left
          apply List.mem_map.mpr
          exact ⟨o, ho, by simp [← hveq]⟩
    · simp at hp
  · -- generic fallback
    have ht2 := dedupFirst_sub ht
    rcases List.mem_filterMap.mp ht2 with ⟨o, ho, hp⟩
    split at hp
    · rw [Option.some_inj] at hp
      subst hp
      right
      exact List.mem_map_of_mem _ ho
    · simp at hp

lemma emitDirect_bound {macros : List (String × LP.MacroDef)} {U : List String}
    {st : LP.ScanSt} {n : String} (hn : HP.pyUpper n ∈ U)
    (h : ResBound macros U st) : ResBound macros U (LP.emitDirect st n) := by
  intro ev hev
  unfold LP.emitDirect at hev
  dsimp only at hev
  split at hev
  · exact h ev hev
  · simp only [List.mem_append, List.mem_singleton] at hev
    rcases hev with hev | hev
    · exact h ev hev
    · subst hev
      exact hn

lemma scanStmt_bound {macros : List (String × LP.MacroDef)} {parent : String}
    {st : LP.ScanSt} {line : String} {U : List String}
    (hsub : ∀ x ∈ lineCands line, x ∈ U)
    (h : ResBound macros U st) : ResBound macros U (LP.scanStmt macros parent st line) := by
  unfold LP.scanStmt
  rcases hss : LP.splitStatement line with ⟨lab, op, opf⟩
  have hcand : ∀ x ∈ lineCands line, x ∈ U := hsub
  unfold lineCands at hcand
  rw [hss] at hcand
  dsimp only at hcand ⊢
  have hops : ∀ o ∈ LP.splitOperands opf, HP.pyUpper (HP.pyStrip o) ∈ U := by
    intro o ho
    apply hcand
    simp only [List.mem_append]
    left; left; left; left
    exact Or.inr (List.mem_map_of_mem _ ho)
  have hops2 : ∀ o ∈ LP.splitOperands opf, HP.pyUpper o ∈ U := by
    intro o ho
    apply hcand
    simp only [List.mem_append]
    left; left; left
    exact Or.inr (List.mem_map_of_mem _ ho)
  have hops3 : ∀ o ∈ LP.splitOperands opf, HP.pyUpper (HP.pyUpper (HP.pyStrip o)) ∈ U := by
    intro o ho
    apply hcand
    simp only [List.mem_append]
    left; left
    exact Or.inr (List.mem_map_of_mem _ ho)
  have hops4 : ∀ o ∈ LP.splitOperands opf,
      HP.pyUpper (HP.strDrop (HP.pyUpper (HP.pyStrip o)) 3) ∈ U := by
    intro o ho
    apply hcand
    simp only [List.mem_append]
    left
    exact Or.inr (List.mem_map_of_mem _ ho)
  have hdisp : ∀ t ∈ LP.targetsFromDispatch (LP.splitOperands opf), HP.pyUpper t ∈ U := by
    intro t ht
    apply hcand
    simp only [List.mem_append]
    exact Or.inr (List.mem_map_of_mem _ ht)
  split
  · exact h
  · split
    · exact h
    · split
      · next hcond =>
        split
        · exact h
        · intro ev hev
          simp only [List.mem_append, List.mem_singleton] at hev
          rcases hev with hev | hev
          · exact h ev hev
          · subst hev
            refine ⟨?_, ?_⟩
            · exact key_mem_of_alHas ((Bool.and_eq_true _ _).mp hcond).1
            · intro t ht
              rcases targetsFromKnownMacroCall_sub _ _ t ht with h2 | h2
              · rcases List.mem_map.mp h2 with ⟨o, ho, heq⟩
                exact heq ▸ hops o ho
              · rcases List.mem_map.mp h2 with ⟨o, ho, heq⟩
                exact heq ▸ hops2 o ho
      · split
        · split
          · next hops_ne _ =>
            apply emitDirect_bound ?_ h
            apply hops3
            cases hcase : LP.splitOperands opf with
            | nil => simp [hcase] at hops_ne
            | cons o t => simp [hcase]
          · exact h
        · split
          · -- LOAD / XCTL / LINK fold over operands
            have key : ∀ (l : List String), (∀ o ∈ l, o ∈ LP.splitOperands opf) →
                ∀ (s : LP.ScanSt), ResBound macros U s →
                ResBound macros U (l.foldl (fun s op =>
                  if HP.pyStartsWith (HP.pyUpper (HP.pyStrip op)) "EP=" then
                    if HP.strDrop (HP.pyUpper (HP.pyStrip op)) 3 ≠ "" &&
                        !HP.pyStartsWith (HP.strDrop (HP.pyUpper (HP.pyStrip op)) 3) "(" &&
                        LP.looksSymbolic (HP.strDrop (HP.pyUpper (HP.pyStrip op)) 3) then
                      LP.emitDirect s (HP.strDrop (HP.pyUpper (HP.pyStrip op)) 3)
                    else s
                  else s) s) := by
              intro l
              induction l with
              | nil => intro _ s hs; exact hs
              | cons o t ih =>
                  intro hl s hs
                  simp only [List.foldl_cons]
                  refine ih (fun x hx => hl x (List.mem_cons_of_mem _ hx)) _ ?_
                  split
                  · split
                    · exact emitDirect_bound (hops4 o (hl o (by simp))) hs
                    · exact hs
                  · exact hs
            exact key _ (fun o ho => ho) _ h
          · split
            · split
              · next hops_ne _ =>
                apply emitDirect_bound ?_ h
                apply hops3
                cases hcase : LP.splitOperands opf with
                | nil => simp [hcase] at hops_ne
                | cons o t => simp [hcase]
              · exact h
            · -- dispatch fold then EQU
              have hd : ResBound macros U
                  ((LP.targetsFromDispatch (LP.splitOperands opf)).foldl LP.emitDirect st) := by
                have key : ∀ (l : List String),
                    (∀ t ∈ l, t ∈ LP.targetsFromDispatch (LP.splitOperands opf)) →
                    ∀ (s : LP.ScanSt), ResBound macros U s →
                    ResBound macros U (l.foldl LP.emitDirect s) := by
                  intro l
                  induction l with
                  | nil => intro _ s hs; exact hs
                  | cons t ts ih =>
                      intro hl s hs
                      simp only [List.foldl_cons]
                      exact ih (fun x hx => hl x (List.mem_cons_of_mem _ hx)) _
                        (emitDirect_bound (hdisp t (hl t (by simp))) hs)
                exact key _ (fun t ht => ht) _ h
              split
              · split
                · next hops_ne _ =>
                  apply emitDirect_bound ?_ hd
                  apply hops
                  cases hcase : LP.splitOperands opf with
                  | nil => simp [hcase] at hops_ne
                  | cons o t => simp [hcase]
                · exact hd
              · exact hd

lemma scanLine_bound {macros : List (String × LP.MacroDef)} {parent : String}
    {st : LP.ScanSt} {line : String} {U : List String}
    (hsub : ∀ x ∈ lineCands line, x ∈ U)
    (h : ResBound macros U st) : ResBound macros U (LP.scanLine macros parent st line) := by
  have hcap : ∀ g, (g ∈ (LP.goMatch line).toList ∨ g ∈ (LP.vLinkMatch line).toList ∨
      g ∈ (LP.linkMatch line).toList) → HP.pyUpper g ∈ U := by
    intro g hg
    apply hsub
    unfold lineCands
    simp only [List.mem_append]
    left; left; left; left; left
    apply List.mem_map_of_mem
    simp only [List.mem_append]
    rcases hg with hg | hg | hg
    · exact Or.inl (Or.inl hg)
    · exact Or.inl (Or.inr hg)
    · exact Or.inr hg
  unfold LP.scanLine
  split
  · exact h
  · cases hgo : LP.goMatch line with
    | some g =>
        exact emitDirect_bound (hcap g (Or.inl (by simp [hgo]))) h
    | none =>
        cases hvl : LP.vLinkMatch line with
        | some v =>
            exact emitDirect_bound (hcap v (Or.inr (Or.inl (by simp [hvl])))) h
        | none =>
            cases hl : LP.linkMatch line with
            | some n =>
                dsimp only
                split
                · exact scanStmt_bound hsub h
                · exact emitDirect_bound (hcap n (Or.inr (Or.inr (by simp [hl])))) h
            | none =>
                exact scanStmt_bound hsub h

lemma findCallsOrdered_bound (lines : List String) (macros : List (String × LP.MacroDef))
    (parent : String) :
    ∀ ev ∈ LP.findCallsOrdered lines macros parent,
      EvBound macros (lines.flatMap lineCands) ev := by
  have key : ∀ (l : List String), (∀ x ∈ l, x ∈ lines) →
      ∀ (s : LP.ScanSt), ResBound macros (lines.flatMap lineCands) s →
      ResBound macros (lines.flatMap lineCands) (l.foldl (LP.scanLine macros parent) s) := by
    intro l
    induction l with
    | nil => intro _ s hs; exact hs
    | cons a t ih =>
        intro hl s hs
        simp only [List.foldl_cons]
        refine ih (fun x hx => hl x (List.mem_cons_of_mem _ hx)) _ ?_
        refine scanLine_bound ?_ hs
        intro x hx
        exact List.mem_flatMap.mpr ⟨a, hl a (by simp), hx⟩
  exact key lines (fun x hx => hx) _ (by intro ev hev; simp at hev)

lemma mem_insFile {x y : LP.SrcFile} {l : List LP.SrcFile}
    (h : x ∈ LP.insFile y l) : x = y ∨ x ∈ l := by
  induction l with
  | nil => simpa [LP.insFile] using h
  | cons z t ih =>
      unfold LP.insFile at h
      split at h
      · rcases List.mem_cons.mp h with h | h
        · right; simp [h]
        · rcases ih h with h | h
          · left; exact h
          · right; exact List.mem_cons_of_mem _ h
      · rcases List.mem_cons.mp h with h | h
        · left; exact h
        · right; exact h

lemma mem_sortFiles {x : LP.SrcFile} {l : List LP.SrcFile}
    (h : x ∈ LP.sortFiles l) : x ∈ l := by
  unfold LP.sortFiles at h
  induction l with
  | nil => simpa using h
  | cons y t ih =>
      simp only [List.foldr_cons] at h
      rcases mem_insFile h with h | h
      · simp [h]
      · exact List.mem_cons_of_mem _ (ih h)

lemma searchFiles_lines_sub {cfg : LP.FS} {f : LP.SrcFile}
    (hf : f ∈ LP.searchFiles cfg) : ∀ l ∈ f.lines, l ∈ linesOfFiles cfg := by
  intro l hl
  unfold LP.searchFiles at hf
  unfold linesOfFiles
  rcases List.mem_cons.mp hf with hf | hf
  · subst hf
    exact List.mem_append.mpr (Or.inl hl)
  · apply List.mem_append.mpr
    right
    cases hd : cfg.deps with
    | none => rw [hd] at hf; simp at hf
    | some fs =>
        rw [hd] at hf
        exact List.mem_flatMap.mpr ⟨f, mem_sortFiles hf, hl⟩

lemma inBlockFrom_sub {rest acc : List String} {x : String}
    (h : x ∈ LP.inBlockFrom rest acc) : x ∈ rest ∨ x ∈ acc := by
  induction rest generalizing acc with
  | nil => right; simpa [LP.inBlockFrom] using h
  | cons l t ih =>
      unfold LP.inBlockFrom at h
      split at h
      · rcases List.mem_append.mp h with h | h
        · right; exact h
        · left; simp only [List.mem_singleton] at h; simp [h]
      · split at h
        · right; exact h
        · rcases ih h with h | h
          · left; exact List.mem_cons_of_mem _ h
          · rcases List.mem_append.mp h with h | h
            · right; exact h
            · left; simp only [List.mem_singleton] at h; simp [h]

lemma ejectBlockFrom_sub {rest : List String} {x : String}
    (h : x ∈ LP.ejectBlockFrom rest) : x ∈ rest := by
  induction rest with
  | nil => simpa [LP.ejectBlockFrom] using h
  | cons l t ih =>
      unfold LP.ejectBlockFrom at h
      split at h
      · simp only [List.mem_singleton] at h; simp [h]
      · rcases List.mem_cons.mp h with h | h
        · simp [h]
        · exact List.mem_cons_of_mem _ (ih h)

lemma scanSubLines_sub (name : String) (U : List String) :
    ∀ (ls : List String) (cand : Option (List String)),
    (∀ b, cand = some b → ∀ x ∈ b, x ∈ U) → (∀ x ∈ ls, x ∈ U) →
    (∀ b, (LP.scanSubLines name ls cand).1 = some b → ∀ x ∈ b, x ∈ U) ∧
    (∀ b, (LP.scanSubLines name ls cand).2 = some b → ∀ x ∈ b, x ∈ U) := by
  intro ls
  induction ls with
  | nil =>
      intro cand hcand _
      exact ⟨fun b hb => by simp [LP.scanSubLines] at hb, fun b hb => hcand b hb⟩
  | cons l rest ih =>
      intro cand hcand hls
      unfold LP.scanSubLines
      split
      · refine ⟨?_, fun b hb => hcand b hb⟩
        intro b hb
        simp only [Option.some_inj] at hb
        subst hb
        intro x hx
        rcases List.mem_cons.mp hx with hx | hx
        · exact hls x (hx ▸ by simp)
        · rcases inBlockFrom_sub hx with hx | hx
          · exact hls x (List.mem_cons_of_mem _ hx)
          · simp at hx
      · split
        · dsimp only
          have hgen : ∀ (c2 : Option (List String)),
              (∀ b2, c2 = some b2 → ∀ x ∈ b2, x ∈ U) →
              (∀ b2, (LP.scanSubLines name rest c2).1 = some b2 → ∀ x ∈ b2, x ∈ U) ∧
              (∀ b2, (LP.scanSubLines name rest c2).2 = some b2 → ∀ x ∈ b2, x ∈ U) :=
            fun c2 hc2 => ih c2 hc2 (fun x hx => hls x (List.mem_cons_of_mem _ hx))
          have hl1 : ∀ b2, (some [l] : Option (List String)) = some b2 → ∀ x ∈ b2, x ∈ U := by
            intro b2 hb2
            rw [Option.some_inj] at hb2
            subst hb2
            intro x hx
            simp only [List.mem_singleton] at hx
            exact hls x (hx ▸ by simp)
          have hl2 : ∀ b2, (some (l :: LP.ejectBlockFrom rest) : Option (List String)) =
              some b2 → ∀ x ∈ b2, x ∈ U := by
            intro b2 hb2
            rw [Option.some_inj] at hb2
            subst hb2
            intro x hx
            rcases List.mem_cons.mp hx with hx | hx
            · exact hls x (hx ▸ by simp)
            · exact hls x (List.mem_cons_of_mem _ (ejectBlockFrom_sub hx))
          split <;> first
            | exact hgen _ hl1
            | exact hgen _ hl2
            | (split <;> first
                | exact hgen _ hl1
                | exact hgen _ hl2)
        · exact ih _ hcand (fun x hx => hls x (List.mem_cons_of_mem _ hx))

lemma findSubroutine_sub {cfg : LP.FS} {name : String} {b : List String}
    (h : LP.findSubroutine cfg name = some b) : ∀ x ∈ b, x ∈ linesOfFiles cfg := by
  unfold LP.findSubroutine at h
  have key : ∀ (fs : List LP.SrcFile) (cand : Option (List String)),
      (∀ f ∈ fs, ∀ l ∈ f.lines, l ∈ linesOfFiles cfg) →
      (∀ b2, cand = some b2 → ∀ x ∈ b2, x ∈ linesOfFiles cfg) →
      LP.findSubroutine.go name fs cand = some b → ∀ x ∈ b, x ∈ linesOfFiles cfg := by
    intro fs
    induction fs with
    | nil =>
        intro cand _ hcand hgo
        exact hcand b hgo
    | cons f t ih =>
        intro cand hfs hcand hgo
        unfold LP.findSubroutine.go at hgo
        rcases hs : LP.scanSubLines name f.lines cand with ⟨o1, o2⟩
        rw [hs] at hgo
        have hsub := scanSubLines_sub name (linesOfFiles cfg) f.lines cand hcand
          (hfs f (by simp))
        rw [hs] at hsub
        cases o1 with
        | some blk =>
            simp only at hgo
            rw [Option.some_inj] at hgo
            subst hgo
            exact hsub.1 _ rfl
        | none =>
            simp only at hgo
            exact ih _ (fun g hg => hfs g (List.mem_cons_of_mem _ hg))
              (fun b2 hb2 => hsub.2 b2 hb2) hgo
  exact key (LP.searchFiles cfg) none
    (fun f hf => searchFiles_lines_sub hf) (fun b2 hb2 => by simp at hb2) h

lemma csectBodyFrom_sub {name : String} {rest : List String} {x : String}
    (h : x ∈ LP.csectBodyFrom name rest) : x ∈ rest := by
  induction rest with
  | nil => simpa [LP.csectBodyFrom] using h
  | cons l t ih =>
      unfold LP.csectBodyFrom at h
      split at h
      · simp only [List.mem_singleton] at h; simp [h]
      · split at h
        · simp at h
        · split at h
          · simp only [List.mem_singleton] at h; simp [h]
          · split at h
            · simp at h
            · rcases List.mem_cons.mp h with h | h
              · simp [h]
              · exact List.mem_cons_of_mem _ (ih h)

lemma scanCsectLines_sub {name : String} {ls : List String} {b : List String}
    (h : LP.scanCsectLines name ls = some b) : ∀ x ∈ b, x ∈ ls := by
  induction ls with
  | nil => simp [LP.scanCsectLines] at h
  | cons l rest ih =>
      unfold LP.scanCsectLines at h
      split at h
      · rw [Option.some_inj] at h
        subst h
        intro x hx
        rcases List.mem_cons.mp hx with hx | hx
        · simp [hx]
        · exact List.mem_cons_of_mem _ (csectBodyFrom_sub hx)
      · intro x hx
        exact List.mem_cons_of_mem _ (ih h x hx)

lemma findCsectBlock_sub {cfg : LP.FS} {name : String} {b : List String}
    (h : LP.findCsectBlock cfg name = some b) : ∀ x ∈ b, x ∈ linesOfFiles cfg := by
  unfold LP.findCsectBlock at h
  have key : ∀ (fs : List LP.SrcFile),
      (∀ f ∈ fs, ∀ l ∈ f.lines, l ∈ linesOfFiles cfg) →
      LP.findCsectBlock.go name fs = some b → ∀ x ∈ b, x ∈ linesOfFiles cfg := by
    intro fs
    induction fs with
    | nil => intro _ hgo; simp [LP.findCsectBlock.go] at hgo
    | cons f t ih =>
        intro hfs hgo
        unfold LP.findCsectBlock.go at hgo
        cases hs : LP.scanCsectLines name f.lines with
        | some blk =>
            rw [hs] at hgo
            simp only [Option.some_inj] at hgo
            subst hgo
            intro x hx
            exact hfs f (by simp) x (scanCsectLines_sub hs x hx)
        | none =>
            rw [hs] at hgo
            exact ih (fun g hg => hfs g (List.mem_cons_of_mem _ hg)) hgo
  exact key (LP.searchFiles cfg) (fun f hf => searchFiles_lines_sub hf) h

lemma findCopybookFile_sub {cfg : LP.FS} {name : String} {b : List String}
    (h : LP.findCopybookFile cfg name = some b) : ∀ x ∈ b, x ∈ linesOfFiles cfg := by
  unfold LP.findCopybookFile at h
  cases hd : cfg.deps with
  | none => rw [hd] at h; exact absurd h (by simp)
  | some fs =>
      rw [hd] at h
      dsimp only at h
      cases hf : (LP.sortFiles fs).find?
          (fun f => HP.pyUpper (LP.stemOf f.name) = HP.pyUpper name) with
      | none => rw [hf] at h; simp at h
      | some f =>
          rw [hf] at h
          simp only [Option.map_some', Option.some_inj] at h
          subst h
          intro x hx
          unfold linesOfFiles
          apply List.mem_append.mpr
          right
          rw [hd]
          exact List.mem_flatMap.mpr ⟨f, mem_sortFiles (List.mem_of_find?_eq_some hf), hx⟩

lemma extractRange_sub {lines : List String} {s e : Nat} {x : String}
    (h : x ∈ LP.extractRange lines s e) : x ∈ lines := by
  unfold LP.extractRange at h
  exact (List.drop_sublist _ _).mem ((List.take_sublist _ _).mem h)

lemma collectBody_sub (lines : List String) :
    ∀ (fuel j : Nat) (x : String), x ∈ (LP.collectBody lines fuel j).1 → x ∈ lines := by
  intro fuel
  induction fuel with
  | zero => intro j x hx; simp [LP.collectBody] at hx
  | succ fuel ih =>
      intro j x hx
      unfold LP.collectBody at hx
      by_cases hlen : lines.length ≤ j
      · rw [if_pos hlen] at hx; simp at hx
      · rw [if_neg hlen] at hx
        dsimp only at hx
        by_cases hm : LP.mendTest (lines.getD j "") = true
        · rw [if_pos hm] at hx
          simp only [List.mem_singleton] at hx
          rw [hx]
          exact getD_mem _ _ _ (by omega)
        · rw [if_neg hm] at hx
          rcases hcb : LP.collectBody lines fuel (j + 1) with ⟨bl, jf⟩
          rw [hcb] at hx
          dsimp only at hx
          rcases List.mem_cons.mp hx with hx | hx
          · rw [hx]
            exact getD_mem _ _ _ (by omega)
          · exact ih _ x (by rw [hcb]; exact hx)

lemma scanMacroDefs_lines_sub (srcName : String) (lines : List String) :
    ∀ (fuel i : Nat) (d : LP.MacroDef), d ∈ LP.scanMacroDefs srcName lines fuel i →
      ∀ l ∈ d.lines, l ∈ lines := by
  intro fuel
  induction fuel with
  | zero => intro i d hd; simp [LP.scanMacroDefs] at hd
  | succ fuel ih =>
      intro i d hd
      unfold LP.scanMacroDefs at hd
      by_cases hlen : lines.length ≤ i
      · rw [if_pos hlen] at hd; simp at hd
      · rw [if_neg hlen] at hd
        dsimp only at hd
        by_cases hms : (!LP.macroStartTest (lines.getD i "")) = true
        · rw [if_pos hms] at hd
          exact ih _ d hd
        · rw [if_neg hms] at hd
          cases hfm : LP.findMendFrom lines (lines.length + 1) (i + 1) with
          | none => rw [hfm] at hd; exact ih _ d hd
          | some k =>
              rw [hfm] at hd
              dsimp only at hd
              by_cases hin : (LP.parseMacroHeader (lines.getD i "")).1 ≠ ""
              · simp only [if_pos hin] at hd
                rw [if_neg (by simp; intro hc; exact absurd hc (by simpa using hin))] at hd
                rw [if_neg (by simpa using hin)] at hd
                rcases List.mem_cons.mp hd with hd | hd
                · subst hd
                  intro l hl
                  rcases List.mem_append.mp hl with hl | hl
                  · exact (List.drop_sublist _ _).mem ((List.take_sublist _ _).mem hl)
                  · exact collectBody_sub lines _ _ l hl
                · exact ih _ d hd
              · simp only [if_neg hin] at hd
                by_cases hlen2 : lines.length ≤
                    LP.findHeaderFrom lines (lines.length + 1) (i + 1)
                · rw [if_pos (by simp at hin ⊢; exact ⟨hin, hlen2⟩)] at hd
                  simp at hd
                · rw [if_neg (by simp [hlen2])] at hd
                  by_cases hno : (LP.parseMacroHeader
                      (lines.getD (LP.findHeaderFrom lines (lines.length + 1) (i + 1)) "")).1
                      = ""
                  · rw [if_pos hno] at hd
                    exact ih _ d hd
                  · rw [if_neg hno] at hd
                    rcases List.mem_cons.mp hd with hd | hd
                    · subst hd
                      intro l hl
                      rcases List.mem_append.mp hl with hl | hl
                      · exact (List.drop_sublist _ _).mem ((List.take_sublist _ _).mem hl)
                      · exact collectBody_sub lines _ _ l hl
                    · exact ih _ d hd

lemma discoverMacros_lines_sub {cfg : LP.FS} {mn : String} {md : LP.MacroDef}
    (h : LP.alGet (LP.discoverMacros cfg) mn = some md) :
    ∀ l ∈ md.lines, l ∈ linesOfFiles cfg := by
  have hchar : LP.alGet (LP.discoverMacros cfg) mn =
      (LP.allMacroDefs cfg).find? (fun d => d.name = mn) := by
    unfold LP.discoverMacros
    rw [discoverMacros_foldl]
    rfl
  rw [hchar] at h
  have hmem : md ∈ LP.allMacroDefs cfg := List.mem_of_find?_eq_some h
  unfold LP.allMacroDefs at hmem
  rcases List.mem_flatMap.mp hmem with ⟨f, hf, hd⟩
  intro l hl
  exact searchFiles_lines_sub hf l (scanMacroDefs_lines_sub f.name f.lines _ _ md hd l hl)

lemma unvis_step {U v : List String} {t : String} (ht : t ∈ U) (hv : t ∉ v) :
    (U.toFinset \ (v ++ [t]).toFinset).card + 1 ≤ (U.toFinset \ v.toFinset).card := by
  have hss : U.toFinset \ (v ++ [t]).toFinset ⊂ U.toFinset \ v.toFinset := by
    rw [Finset.ssubset_def]
    constructor
    · apply Finset.sdiff_subset_sdiff (Finset.Subset.refl _)
      intro x hx
      simp only [List.mem_toFinset] at hx
      simp only [List.toFinset_append, Finset.mem_union, List.mem_toFinset]
      exact Or.inl hx
    · intro hsub
      have hmem : t ∈ U.toFinset \ v.toFinset := by
        simp only [Finset.mem_sdiff, List.mem_toFinset]
        exact ⟨ht, hv⟩
      have h2 := hsub hmem
      simp only [Finset.mem_sdiff, List.mem_toFinset, List.mem_append] at h2
      exact h2.2 (Or.inr (by simp))
  exact Nat.succ_le_of_lt (Finset.card_lt_card hss)

lemma engMeasure_le_step (cfg : LP.FS) (macros : List (String × LP.MacroDef))
    (st st2 : LP.LPState) (target : String)
    (hvis : st2.visited = st.visited ++ [target])
    (hq : st2.queue = st.queue ∨ ∃ p, st2.queue = st.queue ++ [p])
    (ht : target ∈ candNames cfg macros) (hv : target ∉ st.visited) :
    engMeasure cfg macros st2 ≤ engMeasure cfg macros st := by
  unfold engMeasure
  rw [hvis]
  have h1 := unvis_step (U := candNames cfg macros) ht hv
  rcases hq with hq | ⟨p, hq⟩
  · rw [hq]; omega
  · rw [hq]
    simp only [List.length_append, List.length_singleton]
    omega

lemma resolveTarget_M (cfg : LP.FS) (macros : List (String × LP.MacroDef))
    (st : LP.LPState) (target : String)
    (HM : MacroLinesGood cfg macros)
    (ht : target ∈ candNames cfg macros)
    (hq : QGood cfg st) :
    engMeasure cfg macros (LP.resolveTarget cfg macros st target) ≤
      engMeasure cfg macros st ∧
    QGood cfg (LP.resolveTarget cfg macros st target) ∧
    ∀ x ∈ st.visited, x ∈ (LP.resolveTarget cfg macros st target).visited := by
  unfold LP.resolveTarget
  by_cases hv : target ∈ st.visited
  · rw [if_pos hv]
    exact ⟨le_refl _, hq, fun x hx => hx⟩
  · rw [if_neg hv]
    dsimp only
    cases hm : LP.alGet macros target with
    | some md =>
        dsimp only
        refine ⟨?_, ?_, ?_⟩
        · exact engMeasure_le_step cfg macros st _ target rfl (Or.inr ⟨_, rfl⟩) ht hv
        · intro p hp
          rcases List.mem_append.mp hp with hp | hp
          · exact hq p hp
          · simp only [List.mem_singleton] at hp
            subst hp
            exact HM target md hm
        · intro x hx; exact List.mem_append.mpr (Or.inl hx)
    | none =>
        cases hs : LP.findSubroutine cfg target with
        | some ls =>
            dsimp only
            refine ⟨?_, ?_, ?_⟩
            · exact engMeasure_le_step cfg macros st _ target rfl (Or.inr ⟨_, rfl⟩) ht hv
            · intro p hp
              rcases List.mem_append.mp hp with hp | hp
              · exact hq p hp
              · simp only [List.mem_singleton] at hp
                subst hp
                exact findSubroutine_sub hs
            · intro x hx; exact List.mem_append.mpr (Or.inl hx)
        | none =>
            cases hc : LP.findCsectBlock cfg target with
            | some ls =>
                dsimp only
                refine ⟨?_, ?_, ?_⟩
                · exact engMeasure_le_step cfg macros st _ target rfl (Or.inr ⟨_, rfl⟩) ht hv
                · intro p hp
                  rcases List.mem_append.mp hp with hp | hp
                  · exact hq p hp
                  · simp only [List.mem_singleton] at hp
                    subst hp
                    exact findCsectBlock_sub hc
                · intro x hx; exact List.mem_append.mpr (Or.inl hx)
            | none =>
                cases hcb : LP.findCopybookFile cfg target with
                | some ls =>
                    dsimp only
                    refine ⟨?_, ?_, ?_⟩
                    · exact engMeasure_le_step cfg macros st _ target rfl
                        (Or.inr ⟨_, rfl⟩) ht hv
                    · intro p hp
                      rcases List.mem_append.mp hp with hp | hp
                      · exact hq p hp
                      · simp only [List.mem_singleton] at hp
                        subst hp
                        exact findCopybookFile_sub hcb
                    · intro x hx; exact List.mem_append.mpr (Or.inl hx)
                | none =>
                    dsimp only
                    refine ⟨?_, ?_, ?_⟩
                    · exact engMeasure_le_step cfg macros st _ target rfl (Or.inl rfl) ht hv
                    · intro p hp
                      exact hq p hp
                    · intro x hx; exact List.mem_append.mpr (Or.inl hx)

lemma targets_fold_M (cfg : LP.FS) (macros : List (String × LP.MacroDef))
    (mname : String) (HM : MacroLinesGood cfg macros) :
    ∀ (targets : List String) (s : LP.LPState),
      (∀ t ∈ targets, t ∈ candNames cfg macros) → QGood cfg s →
      engMeasure cfg macros (targets.foldl
        (fun s t => LP.resolveTarget cfg macros
          { s with flow := LP.flowAppendNew s.flow mname t } t) s) ≤
        engMeasure cfg macros s ∧
      QGood cfg (targets.foldl
        (fun s t => LP.resolveTarget cfg macros
          { s with flow := LP.flowAppendNew s.flow mname t } t) s) := by
  intro targets
  induction targets with
  | nil => intro s _ hs; exact ⟨le_refl _, hs⟩
  | cons t ts ih =>
      intro s hts hs
      simp only [List.foldl_cons]
      have h1 := resolveTarget_M cfg macros
        { s with flow := LP.flowAppendNew s.flow mname t } t HM (hts t (by simp)) hs
      have h2 := ih _ (fun x hx => hts x (List.mem_cons_of_mem _ hx)) h1.2.1
      exact ⟨le_trans h2.1 h1.1, h2.2⟩

lemma evBound_mono {macros : List (String × LP.MacroDef)} {U V : List String}
    {ev : LP.CallEvent} (hUV : ∀ x ∈ U, x ∈ V) (h : EvBound macros U ev) :
    EvBound macros V ev := by
  cases ev with
  | direct n => exact hUV n h
  | macroEv mn ts => exact ⟨h.1, fun t ht => hUV t (h.2 t ht)⟩

lemma stepEvent_M (cfg : LP.FS) (macros : List (String × LP.MacroDef))
    (parent : String) (st : LP.LPState) (ev : LP.CallEvent)
    (HM : MacroLinesGood cfg macros)
    (hev : EvBound macros (candNames cfg macros) ev)
    (hq : QGood cfg st) :
    engMeasure cfg macros (LP.stepEvent cfg macros parent st ev) ≤
      engMeasure cfg macros st ∧
    QGood cfg (LP.stepEvent cfg macros parent st ev) := by
  cases ev with
  | direct target =>
      unfold LP.stepEvent
      have h1 := resolveTarget_M cfg macros
        { st with flow := LP.flowAppendNew st.flow parent target } target HM hev hq
      exact ⟨h1.1, h1.2.1⟩
  | macroEv mname ts =>
      unfold LP.stepEvent
      dsimp only
      have hmn : mname ∈ macros.map Prod.fst := hev.1
      have hts : ∀ t ∈ ts, t ∈ candNames cfg macros := hev.2
      have hmc : mname ∈ candNames cfg macros := by
        unfold candNames
        exact List.mem_cons_of_mem _ (List.mem_append.mpr (Or.inl hmn))
      by_cases hvm : mname ∈ st.visited
      · rw [if_pos hvm]
        have h2 := targets_fold_M cfg macros mname HM ts
          { st with flow := LP.alSetD (LP.flowAppendNew st.flow parent mname) mname [],
                    nodeTags := LP.alSet st.nodeTags mname ["macro"],
                    chunkKinds := LP.alSet st.chunkKinds mname "macro" } hts hq
        exact h2
      · rw [if_neg hvm]
        have hqB : QGood cfg
            { st with flow := LP.alSetD (LP.flowAppendNew st.flow parent mname) mname [],
                      nodeTags := LP.alSet st.nodeTags mname ["macro"],
                      chunkKinds := LP.alSet st.chunkKinds mname "macro",
                      visited := st.visited ++ [mname],
                      queue := st.queue ++
                        [(mname, ((LP.alGet macros mname).getD default).lines)] } := by
          intro p hp
          rcases List.mem_append.mp hp with hp | hp
          · exact hq p hp
          · simp only [List.mem_singleton] at hp
            subst hp
            intro l hl
            cases hgd : LP.alGet macros mname with
            | some md =>
                rw [hgd] at hl
                exact HM mname md hgd l hl
            | none =>
                rw [hgd] at hl
                have he : ((none : Option LP.MacroDef).getD default).lines = [] := rfl
                rw [he] at hl
                simp at hl
        have hMB := engMeasure_le_step cfg macros st
            { st with flow := LP.alSetD (LP.flowAppendNew st.flow parent mname) mname [],
                      nodeTags := LP.alSet st.nodeTags mname ["macro"],
                      chunkKinds := LP.alSet st.chunkKinds mname "macro",
                      visited := st.visited ++ [mname],
                      queue := st.queue ++
                        [(mname, ((LP.alGet macros mname).getD default).lines)] }
            mname rfl (Or.inr ⟨_, rfl⟩) hmc hvm
        have h2 := targets_fold_M cfg macros mname HM ts _ hts hqB
        exact ⟨le_trans h2.1 hMB, h2.2⟩

lemma events_fold_M (cfg : LP.FS) (macros : List (String × LP.MacroDef))
    (parent : String) (HM : MacroLinesGood cfg macros) :
    ∀ (evs : List LP.CallEvent) (s : LP.LPState),
      (∀ ev ∈ evs, EvBound macros (candNames cfg macros) ev) → QGood cfg s →
      engMeasure cfg macros (evs.foldl (LP.stepEvent cfg macros parent) s) ≤
        engMeasure cfg macros s ∧
      QGood cfg (evs.foldl (LP.stepEvent cfg macros parent) s) := by
  intro evs
  induction evs with
  | nil => intro s _ hs; exact ⟨le_refl _, hs⟩
  | cons ev t ih =>
      intro s hevs hs
      simp only [List.foldl_cons]
      have h1 := stepEvent_M cfg macros parent s ev HM (hevs ev (by simp)) hs
      have h2 := ih _ (fun x hx => hevs x (List.mem_cons_of_mem _ hx)) h1.2
      exact ⟨le_trans h2.1 h1.1, h2.2⟩

lemma runLoop_term (cfg : LP.FS) (macros : List (String × LP.MacroDef))
    (HM : MacroLinesGood cfg macros) :
    ∀ (fuel : Nat) (st : LP.LPState), QGood cfg st →
      engMeasure cfg macros st ≤ fuel → (LP.runLoop cfg macros fuel st).queue = [] := by
  intro fuel
  induction fuel with
  | zero =>
      intro st _ hm
      unfold engMeasure at hm
      have hlen : st.queue.length = 0 := by omega
      unfold LP.runLoop
      exact List.length_eq_zero.mp hlen
  | succ fuel ih =>
      intro st hq hm
      unfold LP.runLoop
      cases hqe : st.queue with
      | nil =>
          exact hqe
      | cons front rest =>
          rcases front with ⟨parent, lines⟩
          dsimp only
          have hlg : ∀ l ∈ lines, l ∈ linesOfFiles cfg :=
            hq (parent, lines) (by rw [hqe]; simp)
          have hcand : ∀ x ∈ lines.flatMap lineCands, x ∈ candNames cfg macros := by
            intro x hx
            rcases List.mem_flatMap.mp hx with ⟨l, hl, hx2⟩
            unfold candNames
            exact List.mem_cons_of_mem _ (List.mem_append.mpr
              (Or.inr (List.mem_flatMap.mpr ⟨l, hlg l hl, hx2⟩)))
          have hbound : ∀ ev ∈ LP.findCallsOrdered lines macros parent,
              EvBound macros (candNames cfg macros) ev := by
            intro ev hev
            exact evBound_mono hcand (findCallsOrdered_bound lines macros parent ev hev)
          have hq2 : QGood cfg { st with queue := rest } := by
            intro p hp
            exact hq p (by rw [hqe]; exact List.mem_cons_of_mem _ hp)
          have hm2 : engMeasure cfg macros { st with queue := rest } ≤ fuel := by
            unfold engMeasure at hm ⊢
            rw [hqe] at hm
            simp only [List.length_cons] at hm
            dsimp only
            omega
          have hf := events_fold_M cfg macros parent HM
            (LP.findCallsOrdered lines macros parent) { st with queue := rest } hbound hq2
          exact ih _ hf.2 (le_trans hf.1 hm2)

lemma run_term (cfg : LP.FS) (s e fuel : Nat)
    (hfuel : engMeasure cfg (LP.discoverMacros cfg)
      (LP.initState (LP.discoverMacros cfg) (LP.discoverEquAliases cfg)
        (LP.extractRange cfg.driver.lines s e)) ≤ fuel) :
    (LP.run cfg s e fuel).queue = [] := by
  unfold LP.run
  apply runLoop_term
  · intro mn md hmd
    exact discoverMacros_lines_sub hmd
  · intro p hp
    unfold LP.initState at hp
    dsimp only at hp
    rcases initState_fold_fields (LP.discoverMacros cfg)
        { chunks := [], flow := [], missing := [], visited := [], queue := [],
          nodeTags := [("main", ["entry"])], chunkKinds := [("main", "sub")],
          macroNodes := (LP.discoverMacros cfg).map (fun nm => nm.1),
          equAliases := LP.discoverEquAliases cfg } with
      ⟨_, _, _, hque⟩
    simp only [List.mem_singleton] at hp
    subst hp
    intro l hl
    unfold linesOfFiles
    exact List.mem_append.mpr (Or.inl (extractRange_sub hl))
  · exact hfuel

/-- C2: the BFS of `LightParser.run` terminates for every finite searchable
file set, even on a cyclic call graph; a visited name is never re-expanded,
so every resolved name holds exactly one chunk-store entry. In the spec's
cycle scenario (entry calls A, A calls B, B calls A) the queue drains, A and
B each appear exactly once among the chunk-store keys, and the back-edge
B calls A is recorded in flow without re-traversal. -/
theorem claim_C2 :
    (∀ (cfg : LP.FS) (s e : Nat), ∃ fuel : Nat,
        (LP.run cfg s e fuel).queue = [] ∧
        ((LP.run cfg s e fuel).chunks.map Prod.fst).Nodup) ∧
    (LP.run c2Cfg 1 1 20).queue = [] ∧
    ((LP.run c2Cfg 1 1 20).chunks.map Prod.fst).count "A" = 1 ∧
    ((LP.run c2Cfg 1 1 20).chunks.map Prod.fst).count "B" = 1 ∧
    LP.alGet (LP.run c2Cfg 1 1 20).flow "A" = some ["B"] ∧
    LP.alGet (LP.run c2Cfg 1 1 20).flow "B" = some ["A"] := by
  refine ⟨?_, rfl, rfl, rfl, rfl, rfl⟩
  intro cfg s e
  refine ⟨engMeasure cfg (LP.discoverMacros cfg)
    (LP.initState (LP.discoverMacros cfg) (LP.discoverEquAliases cfg)
      (LP.extractRange cfg.driver.lines s e)), ?_, ?_⟩
  · exact run_term cfg s e _ (le_refl _)
  · have hinv : EngInv (LP.discoverMacros cfg)
        (LP.run cfg s e (engMeasure cfg (LP.discoverMacros cfg)
          (LP.initState (LP.discoverMacros cfg) (LP.discoverEquAliases cfg)
            (LP.extractRange cfg.driver.lines s e)))) := by
      unfold LP.run
      exact runLoop_inv cfg _ _ _ (initState_inv _ _ _)
    exact hinv.chunks_nodup
